import Mathlib

/-!
Verification of `scripts/port_translation.py`, the script that ports an Inware
translation from the legacy key set to the 2025 key set.

Modelling conventions:

* Python `dict` values are modelled as association lists `List (String × β)`
  with Python's insertion semantics: `dinsert` updates an existing key in
  place (keeping its position) and appends a fresh key at the end; `dget`
  models `dict.get` / `dict.__getitem__`.
* Python `set` values are modelled as duplicate-free lists built by `sinsert`;
  only membership is ever observed.
* A strings-file text is modelled by `Content`: the decomposition that
  `STRING_RE.finditer` induces on the file, namely an alternating sequence of
  unmatched gap text and matches, each match being an `Entry` holding the
  opening tag (regex group 1), the `name` group, the `body` group and the
  closing tag (group 4), plus the unmatched text after the final match
  (`Content.tail`).  `flatten` recovers the full file text.
* `STRING_RE.finditer` itself is modelled executably by a character-level
  scanner, `scanContent`: it produces the decomposition the regex induces on
  a given text (the deterministic reading of the opener pattern is documented
  at `matchOpener`).  Claims about re-extracting from the text the rewriter
  writes are stated over `scanContent` of that text, never over the intended
  decomposition `rewriteSpec`; `scanContent_flatten` relates the two under
  the well-formedness conditions `ContentScanWF`.
* `xml.etree.ElementTree` elements are modelled by `XNode` (tag, attributes,
  text, children, tail), its serializer by `serializeNode`, and `ET.parse`
  by a small executable parser (`parseDoc`) covering the fragment of XML the
  script's inputs use (elements, double-quoted attributes, character data
  with the five predefined entities); inputs outside this fragment are
  rejected, matching expat's fail-fast behaviour on the inputs we evaluate.
* The filesystem touched by the script's `main` is modelled by `FS`, holding
  the four paths the script reads or writes; `pymain` returns the exit code,
  the final filesystem and the stderr/stdout lines.
-/

/-- `dict.get`: first (and, for lists built by `dinsert`, only) binding. -/
def dget {β : Type} : List (String × β) → String → Option β
  | [], _ => none
  | kv :: rest, k => if kv.1 = k then some kv.2 else dget rest k

/-- `dict.__setitem__`: update in place if present, else append. -/
def dinsert {β : Type} : List (String × β) → String → β → List (String × β)
  | [], k, v => [(k, v)]
  | kv :: rest, k, v => if kv.1 = k then (kv.1, v) :: rest else kv :: dinsert rest k v

/-- `set.add`: add the element unless already present. -/
def sinsert (s : List String) (x : String) : List String :=
  if x ∈ s then s else s ++ [x]

/-- `str.startswith`. -/
def pystartswith (s pre : String) : Bool :=
  pre.toList.isPrefixOf s.toList

/-- One match of `STRING_RE`: group 1 (opening tag), the `name` and `body`
named groups, and group 4 (the closing tag, literally `</string>`). -/
structure Entry where
  header : String
  name : String
  body : String
  footer : String
deriving DecidableEq

/-- The decomposition of a strings-file text induced by `STRING_RE.finditer`:
each match paired with the unmatched text before it, plus the unmatched text
after the last match. -/
structure Content where
  segs : List (String × Entry)
  tail : String
deriving DecidableEq

/-- The full file text represented by a `Content`. -/
def flatten (c : Content) : String :=
  c.segs.foldl (fun acc ge => acc ++ ge.1 ++ ge.2.header ++ ge.2.body ++ ge.2.footer) ""
    ++ c.tail

/-- The names of the matched entries, in textual order. -/
def entryNames (c : Content) : List String :=
  c.segs.map (fun ge => ge.2.name)

/-- `parse_string_bodies` (line 72): the dict comprehension
`\x7bmatch.group("name"): match.group("body") for match in STRING_RE.finditer(content)\x7d`. -/
def parse_string_bodies (c : Content) : List (String × String) :=
  c.segs.foldl (fun d ge => dinsert d ge.2.name ge.2.body) []

/-- The `match_map` dict built in `main` (line 232):
`\x7bmatch.group("name"): match for match in matches\x7d`, keeping the match data. -/
def matchMapOf (c : Content) : List (String × Entry) :=
  c.segs.foldl (fun d ge => dinsert d ge.2.name ge.2) []

/-- `rewrite_strings` (lines 98-118).  Returns `none` when no write happens
(the early `return` on an empty `replacements` dict) and `some text` for the
text written to the destination.  The source accumulates the gap before each
match (`target_content[last_idx:match.start()]`), then either the whole match
`match.group(0)` or `group(1) ++ new_body ++ group(4)`, and finally the text
after the last match; the `"".join` of those parts is the left fold below. -/
def rewrite_strings (target : Content) (replacements : List (String × String)) :
    Option String :=
  if replacements.isEmpty then none
  else
    some ((target.segs.foldl
      (fun acc ge =>
        match dget replacements ge.2.name with
        | none => acc ++ ge.1 ++ (ge.2.header ++ ge.2.body ++ ge.2.footer)
        | some newBody => acc ++ ge.1 ++ ge.2.header ++ newBody ++ ge.2.footer)
      "") ++ target.tail)

/-- `destination.write_text` semantics: the destination file content after an
optional write (`none` = no write performed, the file keeps what it held). -/
def applyWrite (current : String) (written : Option String) : String :=
  match written with
  | none => current
  | some s => s

/-- Destination content after `rewrite_strings(target, replacements, dest)`,
where the destination held the target text itself (as in `main`, which copies
the base file to the destination and then rewrites it in place). -/
def finalText (target : Content) (replacements : List (String × String)) : String :=
  applyWrite (flatten target) (rewrite_strings target replacements)

/-- Spec-side description of the Rewriter (spec section 4.4): an entry whose
key has a resolution keeps its delimiters and gets the resolved body; an entry
with no resolution is unchanged. -/
def rewriteEntry (replacements : List (String × String)) (e : Entry) : Entry :=
  match dget replacements e.name with
  | none => e
  | some b => { e with body := b }

/-- Spec-side description of the Rewriter's output as a decomposition: same
gaps, same tail, each entry rewritten by `rewriteEntry`. -/
def rewriteSpec (target : Content) (replacements : List (String × String)) : Content :=
  { segs := target.segs.map (fun ge => (ge.1, rewriteEntry replacements ge.2)),
    tail := target.tail }

/-- The literal `<string` that opens a `STRING_RE` match. -/
def litOpen : List Char := ['<', 's', 't', 'r', 'i', 'n', 'g']

/-- The literal `name="` that introduces the `name` group. -/
def nameEqLit : List Char := ['n', 'a', 'm', 'e', '=', '"']

/-- The literal `</string>` captured by group 4 of `STRING_RE`. -/
def litClose : List Char := ['<', '/', 's', 't', 'r', 'i', 'n', 'g', '>']

/-- Whether `pat` occurs as a contiguous run inside the input. -/
def containsSeq (pat : List Char) : List Char → Bool
  | [] => pat.isEmpty
  | c :: cs => pat.isPrefixOf (c :: cs) || containsSeq pat cs

/-- Consume characters other than `>` until the input starts with `name="`
(the `\s+[^>]*` stretch of the opening-tag pattern). -/
def scanToName : List Char → Option (List Char × List Char)
  | [] => none
  | c :: cs =>
      if nameEqLit.isPrefixOf (c :: cs) then some ([], c :: cs)
      else if c = '>' then none
      else
        match scanToName cs with
        | none => none
        | some (p, r) => some (c :: p, r)

/-- Consume characters up to (excluding) the first `stop`; the returned rest
starts with `stop`. -/
def takeUntilChar (stop : Char) : List Char → Option (List Char × List Char)
  | [] => none
  | c :: cs =>
      if c = stop then some ([], c :: cs)
      else
        match takeUntilChar stop cs with
        | none => none
        | some (p, r) => some (c :: p, r)

/-- Attempt the opening-tag group of `STRING_RE`
(`<string\s+[^>]*name="([^"]+)"[^>]*>`) at the head of the input; on success
it returns the matched opening tag, the `name` group and the rest of the
input.  Deterministic reading of the backtracking engine: `\s+[^>]*` is the
language "one whitespace character followed by non-`>` characters", and the
`name="` occurrence used is the first one in that stretch (greedy
backtracking would use the last; the two agree on tags carrying a single
`name` attribute, which is all the well-formedness predicate below and the
files in this repository use). -/
def matchOpener (cs : List Char) : Option (List Char × List Char × List Char) :=
  if litOpen.isPrefixOf cs then
    match cs.drop 7 with
    | c :: cs1 =>
        if c.isWhitespace then
          match scanToName (c :: cs1) with
          | none => none
          | some (mid, r1) =>
              match takeUntilChar '"' (r1.drop 6) with
              | none => none
              | some (nm, r3) =>
                  if nm.isEmpty then none
                  else
                    match takeUntilChar '>' (r3.drop 1) with
                    | none => none
                    | some (post, r5) =>
                        some (litOpen ++ mid ++ nameEqLit ++ nm ++ ['"'] ++ post ++ ['>'],
                          nm, r5.drop 1)
        else none
    | [] => none
  else none

/-- Find the first `</string>` (the lazy `.*?` followed by group 4): returns
the text before it and the text after it. -/
def findClose : List Char → Option (List Char × List Char)
  | [] => none
  | c :: cs =>
      if litClose.isPrefixOf (c :: cs) then some ([], (c :: cs).drop 9)
      else
        match findClose cs with
        | none => none
        | some (p, r) => some (c :: p, r)

/-- Prepend an unmatched character to a scan result: it lands in the gap
before the first match, or in the trailing text when there is no match. -/
def consGap (c : Char) :
    List (List Char × List Char × List Char × List Char) × List Char →
    List (List Char × List Char × List Char × List Char) × List Char
  | ([], tl) => ([], c :: tl)
  | (g :: segs, tl) => ((c :: g.1, g.2) :: segs, tl)

def consGapAll (g : List Char)
    (r : List (List Char × List Char × List Char × List Char) × List Char) :
    List (List Char × List Char × List Char × List Char) × List Char :=
  g.foldr consGap r

/-- `STRING_RE.finditer`: at each position try the opening tag and then the
first closing `</string>`; on success emit the match (gap before it, opening
tag, name, body) and continue after it, otherwise move one character into
the gap, exactly as the engine advances on failure.  The fuel only bounds
the recursion and is always instantiated above the input length. -/
def scanAux : Nat → List Char →
    List (List Char × List Char × List Char × List Char) × List Char
  | 0, cs => ([], cs)
  | fuel + 1, cs =>
      match matchOpener cs with
      | some (hd, nm, rest) =>
          (match findClose rest with
           | some (body, rest2) =>
               let r := scanAux fuel rest2
               (([], hd, nm, body) :: r.1, r.2)
           | none =>
               match cs with
               | [] => ([], [])
               | c :: cs2 => consGap c (scanAux fuel cs2))
      | none =>
          match cs with
          | [] => ([], [])
          | c :: cs2 => consGap c (scanAux fuel cs2)

/-- The decomposition `STRING_RE.finditer` induces on a text, as a
`Content`. -/
def scanContent (s : String) : Content :=
  let r := scanAux (s.toList.length + 1) s.toList
  ⟨r.1.map (fun g => (String.mk g.1,
      ⟨String.mk g.2.1, String.mk g.2.2.1, String.mk g.2.2.2, "</string>"⟩)),
    String.mk r.2⟩

/-- The character stream of a segment list. -/
def segsChars : List (String × Entry) → List Char
  | [] => []
  | ge :: rest =>
      ge.1.toList ++ ge.2.header.toList ++ ge.2.body.toList ++ ge.2.footer.toList
        ++ segsChars rest

/-- An entry whose pieces scan back to themselves: the opening tag matches
the opener pattern exactly (yielding its own name and nothing more), the
closing tag is the literal `</string>`, and the body contains no
`</string>`. -/
def EntryScanWF (e : Entry) : Prop :=
  matchOpener e.header.toList = some (e.header.toList, e.name.toList, [])
  ∧ e.footer = "</string>"
  ∧ containsSeq litClose e.body.toList = false

/-- A decomposition whose flattening scans back to it: every gap and the
trailing text contain no `<string`, and every entry is `EntryScanWF`. -/
def ContentScanWF (c : Content) : Prop :=
  (∀ ge ∈ c.segs, containsSeq litOpen ge.1.toList = false ∧ EntryScanWF ge.2)
  ∧ containsSeq litOpen c.tail.toList = false

instance (e : Entry) : Decidable (EntryScanWF e) := by
  unfold EntryScanWF
  exact inferInstance

instance (c : Content) : Decidable (ContentScanWF c) := by
  unfold ContentScanWF
  exact inferInstance

/-- `xml.etree.ElementTree.Element`: tag, attributes (in document order),
text before the first child, child elements, and the tail text that follows
the element's closing tag (ET stores the tail on the element itself). -/
inductive XNode where
  | mk (tag : String) (attrs : List (String × String)) (text : String)
       (children : List XNode) (tail : String)

def XNode.tag : XNode → String
  | .mk t _ _ _ _ => t

def XNode.attrs : XNode → List (String × String)
  | .mk _ a _ _ _ => a

def XNode.text : XNode → String
  | .mk _ _ t _ _ => t

def XNode.children : XNode → List XNode
  | .mk _ _ _ cs _ => cs

def XNode.tail : XNode → String
  | .mk _ _ _ _ t => t

/-- ET's `_escape_cdata`: escape `&`, `<`, `>` in character data. -/
def escape_cdata (s : String) : String :=
  s.toList.foldl
    (fun acc c =>
      if c = '&' then acc ++ "&amp;"
      else if c = '<' then acc ++ "&lt;"
      else if c = '>' then acc ++ "&gt;"
      else acc.push c) ""

/-- ET's `_escape_attrib`: escape `&`, `<`, `>`, `"` and tab/newline/return
in attribute values. -/
def escape_attrib (s : String) : String :=
  s.toList.foldl
    (fun acc c =>
      if c = '&' then acc ++ "&amp;"
      else if c = '<' then acc ++ "&lt;"
      else if c = '>' then acc ++ "&gt;"
      else if c = '"' then acc ++ "&quot;"
      else if c = '\r' then acc ++ "&#13;"
      else if c = '\n' then acc ++ "&#10;"
      else if c = '\t' then acc ++ "&#09;"
      else acc.push c) ""

def attrsString (attrs : List (String × String)) : String :=
  attrs.foldl (fun acc kv => acc ++ " " ++ kv.1 ++ "=\"" ++ escape_attrib kv.2 ++ "\"") ""

/-- ET's `_serialize_xml` with `short_empty_elements=True` (the
`ET.tostring(child, encoding="unicode")` path).  An element is written as its
start tag, escaped text, serialized children and end tag (or `" />"` when it
has neither text nor children), followed by its escaped tail (`_serialize_xml`
writes the tail of the element it is called on, so `ET.tostring(child)`
includes `child.tail`). -/
def serializeNode : XNode → String
  | XNode.mk tag attrs text children tl =>
      "<" ++ tag ++ attrsString attrs ++
        (if text = "" && children.isEmpty then " />"
         else ">" ++ escape_cdata text ++
           String.join (children.attach.map
             (fun (c : { x // x ∈ children }) => serializeNode c.val))
           ++ "</" ++ tag ++ ">")
        ++ escape_cdata tl
decreasing_by
  have h := List.sizeOf_lt_of_mem c.2
  simp only [XNode.mk.sizeOf_spec]
  omega

/-- `ET.tostring(child, encoding="unicode")`. -/
def et_tostring (child : XNode) : String :=
  serializeNode child

/-- Python `\w` (ASCII portion, as produced by the serializer). -/
def pyWordChar (c : Char) : Bool :=
  c.isAlphanum || c = '_'

/-- Try to match `\s+xmlns(:\w+)?="[^"]+"` at the head of the input
(which must start with a whitespace character); returns the rest on match. -/
def tryXmlnsAt (cs : List Char) : Option (List Char) :=
  let ws := cs.takeWhile Char.isWhitespace
  if ws.isEmpty then none
  else
    let afterWs := cs.dropWhile Char.isWhitespace
    match afterWs with
    | 'x' :: 'm' :: 'l' :: 'n' :: 's' :: r1 =>
        let r2 :=
          match r1 with
          | ':' :: r => if (r.takeWhile pyWordChar).isEmpty then none
                        else some (r.dropWhile pyWordChar)
          | _ => some r1
        match r2 with
        | none => none
        | some r3 =>
            match r3 with
            | '=' :: '"' :: r4 =>
                let v := r4.takeWhile (fun c => c ≠ '"')
                if v.isEmpty then none
                else
                  match r4.dropWhile (fun c => c ≠ '"') with
                  | '"' :: r5 => some r5
                  | _ => none
            | _ => none
    | _ => none

/-- `re.sub(r'\s+xmlns(:\w+)?="[^"]+"', "", child_xml)` (line 67): remove
every non-overlapping leftmost match of the xmlns-declaration pattern. -/
def stripXmlnsAux : Nat → List Char → List Char
  | 0, cs => cs
  | _ + 1, [] => []
  | fuel + 1, c :: cs =>
      if c.isWhitespace then
        match tryXmlnsAt (c :: cs) with
        | some rest => stripXmlnsAux fuel rest
        | none => c :: stripXmlnsAux fuel cs
      else c :: stripXmlnsAux fuel cs

def stripXmlns (s : String) : String :=
  String.mk (stripXmlnsAux (s.toList.length + 1) s.toList)

/-- `element_inner_xml` (lines 61-69): the element's text appended verbatim
(without re-escaping), then each child re-serialized by `ET.tostring` with
xmlns declarations stripped. -/
def element_inner_xml (elem : XNode) : String :=
  (if elem.text = "" then "" else elem.text) ++
    String.join (elem.children.map (fun child => stripXmlns (et_tostring child)))

/-- `PortStats` (lines 35-47); the two `None`-defaulted sets start empty. -/
structure PortStats where
  applied : Nat
  fallback_existing : Nat
  fallback_default : Nat
  missing_old : List String
  missing_new : List String

def initStats : PortStats :=
  { applied := 0, fallback_existing := 0, fallback_default := 0,
    missing_old := [], missing_new := [] }

/-- The body of the `for new_key, old_key in mappings` loop of
`apply_mappings` (lines 132-151), acting on the `(replacements, stats)`
accumulator. -/
def applyStep (legacy_strings : List (String × XNode))
    (existing_strings : List (String × String))
    (match_map : List (String × Entry))
    (default_bodies : List (String × String))
    (st : List (String × String) × PortStats) (pr : String × String) :
    List (String × String) × PortStats :=
  match dget match_map pr.1 with
  | none => (st.1, { st.2 with missing_new := sinsert st.2.missing_new pr.1 })
  | some _ =>
      match dget legacy_strings pr.2 with
      | some legacy_elem =>
          (dinsert st.1 pr.1 (element_inner_xml legacy_elem),
           { st.2 with applied := st.2.applied + 1 })
      | none =>
          let st2 :=
            match dget existing_strings pr.1 with
            | some fb =>
                (dinsert st.1 pr.1 fb,
                 { st.2 with fallback_existing := st.2.fallback_existing + 1 })
            | none =>
                (dinsert st.1 pr.1 ((dget default_bodies pr.1).getD ""),
                 { st.2 with fallback_default := st.2.fallback_default + 1 })
          (st2.1, { st2.2 with missing_old := sinsert st2.2.missing_old pr.2 })

/-- The second loop of `apply_mappings` (lines 153-156): copy forward every
existing entry whose key is not reserved, not already produced, and known to
the target. -/
def secondPass (existing_strings : List (String × String))
    (match_map : List (String × Entry))
    (replacements : List (String × String)) : List (String × String) :=
  existing_strings.foldl
    (fun repl kv =>
      if pystartswith kv.1 "legacy_" || (dget repl kv.1).isSome
          || (dget match_map kv.1).isNone
      then repl
      else dinsert repl kv.1 kv.2)
    replacements

/-- `apply_mappings` (lines 121-158). -/
def apply_mappings (mappings : List (String × String))
    (legacy_strings : List (String × XNode))
    (existing_strings : List (String × String))
    (match_map : List (String × Entry))
    (default_bodies : List (String × String)) :
    List (String × String) × PortStats :=
  let st := mappings.foldl
    (applyStep legacy_strings existing_strings match_map default_bodies)
    ([], initStats)
  (secondPass existing_strings match_map st.1, st.2)

/-- Characters allowed in an XML name by the parser model. -/
def xNameChar (c : Char) : Bool :=
  c.isAlphanum || c = '_' || c = '-' || c = ':' || c = '.'

/-- Split off a maximal run of name characters. -/
def xTakeName : List Char → List Char × List Char
  | [] => ([], [])
  | c :: cs =>
      if xNameChar c then
        let r := xTakeName cs
        (c :: r.1, r.2)
      else ([], c :: cs)

/-- Decode one predefined entity reference after a `&`. -/
def xEntity (cs : List Char) : Option (Char × List Char) :=
  if ['a', 'm', 'p', ';'].isPrefixOf cs then some ('&', cs.drop 4)
  else if ['l', 't', ';'].isPrefixOf cs then some ('<', cs.drop 3)
  else if ['g', 't', ';'].isPrefixOf cs then some ('>', cs.drop 3)
  else if ['q', 'u', 'o', 't', ';'].isPrefixOf cs then some ('"', cs.drop 5)
  else if ['a', 'p', 'o', 's', ';'].isPrefixOf cs then some (Char.ofNat 39, cs.drop 5)
  else none

/-- Read character data up to (excluding) the stop character or end of input,
decoding entity references; a `<` that is not the stop character is an error,
an undefined entity is an error (expat fails on both). -/
def xChars (stop : Char) : Nat → List Char → Option (List Char × List Char)
  | 0, _ => none
  | _ + 1, [] => some ([], [])
  | fuel + 1, c :: cs =>
      if c = stop then some ([], c :: cs)
      else if c = '&' then
        match xEntity cs with
        | none => none
        | some (d, rest) =>
            match xChars stop fuel rest with
            | none => none
            | some (t, r) => some (d :: t, r)
      else if c = '<' then none
      else
        match xChars stop fuel cs with
        | none => none
        | some (t, r) => some (c :: t, r)

/-- Parse the attribute list of a start tag, stopping before `>` or `/>`. -/
def xAttrs : Nat → List Char → Option (List (String × String) × List Char)
  | 0, _ => none
  | fuel + 1, cs =>
      let cs1 := cs.dropWhile Char.isWhitespace
      match cs1 with
      | [] => none
      | c :: _ =>
          if c = '>' ∨ c = '/' then some ([], cs1)
          else
            let nm := xTakeName cs1
            if nm.1.isEmpty then none
            else
              match nm.2 with
              | '=' :: '"' :: r2 =>
                  match xChars '"' fuel r2 with
                  | none => none
                  | some (v, r3) =>
                      match r3 with
                      | '"' :: r4 =>
                          match xAttrs fuel r4 with
                          | none => none
                          | some (as, r5) =>
                              some ((String.mk nm.1, String.mk v) :: as, r5)
                      | _ => none
              | _ => none

/-- Parse a sequence of sibling elements (each carrying its tail text),
stopping at a closing tag or end of input.  The input must start at a `<`
or be exhausted (any preceding character data was consumed by the caller). -/
def xNodes : Nat → List Char → Option (List XNode × List Char)
  | 0, _ => none
  | _ + 1, [] => some ([], [])
  | _ + 1, '<' :: '/' :: cs => some ([], '<' :: '/' :: cs)
  | fuel + 1, '<' :: cs =>
      let nm := xTakeName cs
      if nm.1.isEmpty then none
      else
        match xAttrs fuel nm.2 with
        | none => none
        | some (as, r2) =>
            match r2 with
            | '/' :: '>' :: r3 =>
                (match xChars '<' fuel r3 with
                 | none => none
                 | some (tl, r4) =>
                     match xNodes fuel r4 with
                     | none => none
                     | some (sibs, r5) =>
                         some (XNode.mk (String.mk nm.1) as "" [] (String.mk tl) :: sibs, r5))
            | '>' :: r3 =>
                (match xChars '<' fuel r3 with
                 | none => none
                 | some (txt, r4) =>
                     match xNodes fuel r4 with
                     | none => none
                     | some (kids, r5) =>
                         match r5 with
                         | '<' :: '/' :: r6 =>
                             let cnm := xTakeName r6
                             if cnm.1 ≠ nm.1 then none
                             else
                               match cnm.2.dropWhile Char.isWhitespace with
                               | '>' :: r8 =>
                                   (match xChars '<' fuel r8 with
                                    | none => none
                                    | some (tl, r9) =>
                                        match xNodes fuel r9 with
                                        | none => none
                                        | some (sibs, r10) =>
                                            some (XNode.mk (String.mk nm.1) as
                                              (String.mk txt) kids (String.mk tl) :: sibs, r10))
                               | _ => none
                         | _ => none)
            | _ => none
  | _ + 1, _ => none

/-- `ET.parse` on a document of the modelled fragment: optional leading
whitespace, then exactly one root element; returns its root. -/
def parseDoc (raw : String) : Option XNode :=
  let cs := raw.toList
  let fuel := 2 * cs.length + 8
  match xChars '<' fuel cs with
  | none => none
  | some (lead, r1) =>
      if lead.all Char.isWhitespace then
        match xNodes fuel r1 with
        | none => none
        | some ([root], []) => some root
        | _ => none
      else none

/-- Lines 226-228: `legacy_root.findall("string")` and the dict comprehension
`\x7belem.attrib["name"]: elem for elem in ...\x7d`; `none` models the `KeyError`
raised when a `<string>` element has no `name` attribute. -/
def legacyStringsOf (root : XNode) : Option (List (String × XNode)) :=
  (root.children.filter (fun e => e.tag == "string")).foldl
    (fun acc e =>
      match acc with
      | none => none
      | some d =>
          match dget e.attrs "name" with
          | none => none
          | some nm => some (dinsert d nm e))
    (some [])

def renderHeaderList : List String → String
  | [] => ""
  | [x] => x
  | x :: xs => x ++ ", " ++ renderHeaderList xs

/-- Rendering of `reader.fieldnames` in the error message (Python shows the
list repr, or `None` for an empty file; quoting of the items is elided). -/
def renderFieldnames : Option (List String) → String
  | none => "None"
  | some l => "[" ++ renderHeaderList l ++ "]"

/-- `load_mapping` (lines 77-86) over the parsed CSV rows.  `reader.fieldnames`
is the first row (or `None` when the file is empty); the loop appends
`(row["new_key"], row["old_key"])` for every data row, with `csv.DictReader`
skipping blank rows; a cell missing from a short row is modelled as `""`
(the script's CSV always has both columns). -/
def load_mapping (rows : List (List String)) :
    Except String (List (String × String)) :=
  let fieldnames := rows.head?
  if fieldnames = some ["new_key", "old_key"] then
    .ok (rows.tail.foldl
      (fun acc row =>
        if row.isEmpty then acc else acc ++ [(row.getD 0 "", row.getD 1 "")])
      [])
  else .error ("Unexpected mapping headers: " ++ renderFieldnames fieldnames)

/-- A strings.xml file as both the raw text handed to `ET.parse` and the
decomposition that `STRING_RE.finditer` induces on that same text. -/
structure XmlFile where
  raw : String
  segs : Content

/-- The paths `main` touches, for one language: the base `values/strings.xml`
file, the language folder `values-LANG` (with its optional `strings.xml`),
the archive folder `legacy/values-LANG`, and the mapping CSV. -/
structure FS where
  base : Option XmlFile
  langDir : Option (Option XmlFile)
  legacyDir : Option (Option XmlFile)
  mappingCsv : Option (List (List String))

/-- One run's outcome: process exit code, final filesystem, stderr lines,
stdout lines. -/
structure RunResult where
  exitCode : Nat
  state : FS
  errs : List String
  outs : List String

/-- `read_existing_strings` (lines 89-95): empty dict when the language
folder has no `strings.xml`. -/
def read_existing_strings (langFiles : Option XmlFile) : List (String × String) :=
  match langFiles with
  | none => []
  | some f => parse_string_bodies f.segs

/-- `report_stats` (lines 161-170): the stdout lines, the conditional ones
only when the corresponding count or set is non-empty. -/
def report_stats (stats : PortStats) : List String :=
  ["Applied " ++ toString stats.applied ++ " translations."]
  ++ (if stats.fallback_existing ≠ 0 then
        ["Kept " ++ toString stats.fallback_existing ++
          " existing translations where no legacy match was found."] else [])
  ++ (if stats.fallback_default ≠ 0 then
        ["Used base English defaults for " ++ toString stats.fallback_default ++
          " strings with no translation."] else [])
  ++ (if stats.missing_old ≠ [] then
        ["Skipped " ++ toString stats.missing_old.length ++ " missing legacy keys."] else [])
  ++ (if stats.missing_new ≠ [] then
        ["Skipped " ++ toString stats.missing_new.length ++ " unknown new keys."] else [])

/-- `main` (lines 173-242) over the filesystem model.  The precondition
checks run in source order and abort with exit code 1 before any mutation;
the move, fresh-folder copy, mapping load, legacy parse, resolution and
rewrite then run in source order.  An uncaught Python exception
(`ValueError` from `load_mapping`, `ParseError` from `ET.parse`, `KeyError`
from a nameless `<string>`) is modelled as exit code 1 with the exception
name on stderr. -/
def pymain (lang : String) (fs : FS) : RunResult :=
  match fs.base with
  | none => ⟨1, fs, ["Missing base translation file: values/strings.xml"], []⟩
  | some base =>
  match fs.langDir with
  | none => ⟨1, fs, ["Translation folder values-" ++ lang ++ " does not exist."], []⟩
  | some langFiles =>
  match fs.legacyDir with
  | some _ => ⟨1, fs, ["Legacy destination legacy/values-" ++ lang ++
      " already exists. Please move or remove it first."], []⟩
  | none =>
  match fs.mappingCsv with
  | none => ⟨1, fs, ["Mapping file mapping_2025.csv is missing."], []⟩
  | some rows =>
  let existing_strings := read_existing_strings langFiles
  let fs1 : FS := { fs with legacyDir := some langFiles, langDir := none }
  let outs1 := ["Moving values-" ++ lang ++ " -> legacy/values-" ++ lang]
  let fs2 : FS := { fs1 with langDir := some (some base) }
  let outs2 := outs1 ++ ["Creating fresh folder values-" ++ lang, "Loading mapping..."]
  match load_mapping rows with
  | .error e => ⟨1, fs2, ["ValueError: " ++ e], outs2⟩
  | .ok mappings =>
  let outs3 := outs2 ++ ["Loading legacy translations from legacy/values-" ++ lang ++
    "/strings.xml"]
  match langFiles with
  | none => ⟨1, fs2, ["Legacy strings file missing at legacy/values-" ++ lang ++
      "/strings.xml."], outs3⟩
  | some legacyFile =>
  match parseDoc legacyFile.raw with
  | none => ⟨1, fs2, ["xml.etree.ElementTree.ParseError"], outs3⟩
  | some legacyRoot =>
  match legacyStringsOf legacyRoot with
  | none => ⟨1, fs2, ["KeyError: name"], outs3⟩
  | some legacy_strings =>
  let target := base
  let match_map := matchMapOf target.segs
  let default_bodies := parse_string_bodies target.segs
  let rs := apply_mappings mappings legacy_strings existing_strings match_map default_bodies
  let fs3 : FS :=
    match rewrite_strings target.segs rs.1 with
    | none => fs2
    | some out => { fs2 with langDir := some (some ⟨out, scanContent out⟩) }
  ⟨0, fs3, [], outs3 ++ report_stats rs.2⟩

/-- A concrete legacy `strings.xml` text: one entry `a` whose raw inner text
is `A &amp; B`. -/
def legacyRawCx : String :=
  "<resources><string name=\"a\">A &amp; B</string></resources>"

/-- The decomposition `STRING_RE.finditer` induces on `legacyRawCx`. -/
def legacyContentCx : Content :=
  ⟨[("<resources>", ⟨"<string name=\"a\">", "a", "A &amp; B", "</string>"⟩)],
    "</resources>"⟩

/-- A concrete target (fresh base) file: one entry `k` with default body
`Hi`. -/
def targetContentCx : Content :=
  ⟨[("<resources>", ⟨"<string name=\"k\">", "k", "Hi", "</string>"⟩)],
    "</resources>"⟩

/-- The legacy lookup table `main` builds from `legacyRawCx`. -/
def legacyTableCx : List (String × XNode) :=
  ((parseDoc legacyRawCx).bind legacyStringsOf).getD []

/-- A legacy file whose entry `a` smuggles, through escaped markup, a
complete `<string>` entry: the parsed text of `a` is
`X</string><string name="evil">Y`, which `element_inner_xml` emits
verbatim into the replacement body. -/
def legacyRawAdv : String :=
  "<resources><string name=\"a\">X&lt;/string&gt;&lt;string name=\"evil\"&gt;Y</string></resources>"

def legacyTableAdv : List (String × XNode) :=
  ((parseDoc legacyRawAdv).bind legacyStringsOf).getD []

/-- The resolution the engine produces from `legacyRawAdv` for the target
`targetContentCx` and the single mapping row `(k, a)`. -/
def replAdv : List (String × String) :=
  (apply_mappings [("k", "a")] legacyTableAdv [] (matchMapOf targetContentCx)
    (parse_string_bodies targetContentCx)).1

theorem dget_dinsert {β : Type} (d : List (String × β)) (k k' : String) (v : β) :
    dget (dinsert d k v) k' = if k = k' then some v else dget d k' := by
  induction d with
  | nil => simp [dget, dinsert]
  | cons kv rest ih =>
      by_cases h1 : kv.1 = k
      · by_cases h2 : k = k' <;> simp_all [dget, dinsert]
      · by_cases h2 : kv.1 = k' <;> by_cases h3 : k = k' <;>
          simp_all [dget, dinsert]

theorem dget_dinsert_isSome {β : Type} (d : List (String × β)) (k k' : String) (v : β) :
    (dget (dinsert d k v) k').isSome = true ↔ k = k' ∨ (dget d k').isSome = true := by
  rw [dget_dinsert]
  by_cases h : k = k' <;> simp [h]

/-- The body loop of `rewrite_strings` produces exactly the flattening of the
spec-side rewritten decomposition. -/
theorem rewrite_loop_flatten (segs : List (String × Entry))
    (replacements : List (String × String)) (acc : String) :
    segs.foldl
      (fun acc ge =>
        match dget replacements ge.2.name with
        | none => acc ++ ge.1 ++ (ge.2.header ++ ge.2.body ++ ge.2.footer)
        | some newBody => acc ++ ge.1 ++ ge.2.header ++ newBody ++ ge.2.footer)
      acc
    = (segs.map (fun ge => (ge.1, rewriteEntry replacements ge.2))).foldl
        (fun acc ge => acc ++ ge.1 ++ ge.2.header ++ ge.2.body ++ ge.2.footer) acc := by
  induction segs generalizing acc with
  | nil => rfl
  | cons ge rest ih =>
      simp only [List.foldl_cons, List.map_cons]
      rw [ih]
      congr 1
      cases h : dget replacements ge.2.name <;>
        simp [rewriteEntry, h, String.append_assoc]

theorem rewriteSpec_empty (c : Content) : rewriteSpec c [] = c := by
  cases c with
  | mk segs tl =>
      simp only [rewriteSpec, rewriteEntry, dget]
      congr 1
      induction segs with
      | nil => rfl
      | cons ge rest ih => simp_all

/-- Main bridge: the destination content after the rewrite equals the
flattening of the spec-side description, for every replacements dict
(including the empty one, where no write happens). -/
theorem finalText_eq_flatten_rewriteSpec (c : Content)
    (replacements : List (String × String)) :
    finalText c replacements = flatten (rewriteSpec c replacements) := by
  cases hr : replacements with
  | nil => simp [finalText, rewrite_strings, applyWrite, rewriteSpec_empty]
  | cons p ps =>
      simp only [finalText, rewrite_strings, List.isEmpty_cons, applyWrite,
        Bool.false_eq_true, if_false]
      rw [rewrite_loop_flatten]
      rfl

theorem rewriteEntry_name (replacements : List (String × String)) (e : Entry) :
    (rewriteEntry replacements e).name = e.name := by
  cases h : dget replacements e.name <;> simp [rewriteEntry, h]

theorem dget_foldl_dinsert_isSome {β γ : Type} (f : γ → String) (g : γ → β) :
    ∀ (l : List γ) (d : List (String × β)) (k : String),
    (dget (l.foldl (fun d x => dinsert d (f x) (g x)) d) k).isSome = true
      ↔ (dget d k).isSome = true ∨ ∃ x ∈ l, f x = k := by
  intro l
  induction l with
  | nil => simp
  | cons x rest ih =>
      intro d k
      simp only [List.foldl_cons, ih, dget_dinsert_isSome, List.mem_cons]
      constructor
      · rintro ((h | h) | ⟨y, hy, hfy⟩)
        · exact Or.inr ⟨x, Or.inl rfl, h⟩
        · exact Or.inl h
        · exact Or.inr ⟨y, Or.inr hy, hfy⟩
      · rintro (h | ⟨y, hy | hy, hfy⟩)
        · exact Or.inl (Or.inr h)
        · exact Or.inl (Or.inl (hy ▸ hfy))
        · exact Or.inr ⟨y, hy, hfy⟩

theorem dget_foldl_dinsert_eq {β γ : Type} (f : γ → String) (g : γ → β) :
    ∀ (l : List γ) (d : List (String × β)) (k : String) (v : β),
    (∀ x ∈ l, f x = k → g x = v) →
    ((∃ x ∈ l, f x = k) ∨ dget d k = some v) →
    dget (l.foldl (fun d x => dinsert d (f x) (g x)) d) k = some v := by
  intro l
  induction l with
  | nil =>
      intro d k v _ h
      simpa using h
  | cons x rest ih =>
      intro d k v hall h
      simp only [List.foldl_cons]
      apply ih
      · intro y hy hfy
        exact hall y (List.mem_cons_of_mem x hy) hfy
      · by_cases hx : f x = k
        · right
          rw [dget_dinsert, if_pos hx]
          exact congrArg some (hall x (List.mem_cons_self x rest) hx)
        · rcases h with ⟨y, hy, hfy⟩ | hd
          · rcases List.mem_cons.mp hy with rfl | hy'
            · exact absurd hfy hx
            · exact Or.inl ⟨y, hy', hfy⟩
          · right
            rw [dget_dinsert, if_neg hx]
            exact hd

/-- The per-pair counter increment: each processed pair adds exactly one to
`applied + fallback_existing + fallback_default` iff its `new_key` is in the
match map. -/
theorem applyStep_sum (legacy_strings : List (String × XNode))
    (existing_strings : List (String × String)) (match_map : List (String × Entry))
    (default_bodies : List (String × String))
    (st : List (String × String) × PortStats) (pr : String × String) :
    ((applyStep legacy_strings existing_strings match_map default_bodies st pr).2.applied
      + (applyStep legacy_strings existing_strings match_map default_bodies st pr).2.fallback_existing
      + (applyStep legacy_strings existing_strings match_map default_bodies st pr).2.fallback_default)
    = st.2.applied + st.2.fallback_existing + st.2.fallback_default
      + (if (dget match_map pr.1).isSome then 1 else 0) := by
  cases h1 : dget match_map pr.1 with
  | none => simp [applyStep, h1]
  | some m =>
      cases h2 : dget legacy_strings pr.2 with
      | some e => simp [applyStep, h1, h2]; omega
      | none =>
          cases h3 : dget existing_strings pr.1 with
          | some b => simp [applyStep, h1, h2, h3]; omega
          | none => simp [applyStep, h1, h2, h3]; omega

theorem mappingLoop_sum (legacy_strings : List (String × XNode))
    (existing_strings : List (String × String)) (match_map : List (String × Entry))
    (default_bodies : List (String × String)) :
    ∀ (ms : List (String × String)) (st : List (String × String) × PortStats),
    ((ms.foldl (applyStep legacy_strings existing_strings match_map default_bodies) st).2.applied
      + (ms.foldl (applyStep legacy_strings existing_strings match_map default_bodies) st).2.fallback_existing
      + (ms.foldl (applyStep legacy_strings existing_strings match_map default_bodies) st).2.fallback_default)
    = st.2.applied + st.2.fallback_existing + st.2.fallback_default
      + (ms.filter (fun pr => (dget match_map pr.1).isSome)).length := by
  intro ms
  induction ms with
  | nil => intro st; simp
  | cons pr rest ih =>
      intro st
      simp only [List.foldl_cons, List.filter_cons]
      rw [ih, applyStep_sum]
      by_cases h : (dget match_map pr.1).isSome = true
      all_goals simp [h]
      all_goals omega

/-- Any key the loop body adds to `replacements` is a key of the match map. -/
theorem applyStep_keys (legacy_strings : List (String × XNode))
    (existing_strings : List (String × String)) (match_map : List (String × Entry))
    (default_bodies : List (String × String))
    (st : List (String × String) × PortStats) (pr : String × String) (k : String) :
    (dget (applyStep legacy_strings existing_strings match_map default_bodies st pr).1 k).isSome = true →
    (dget st.1 k).isSome = true ∨ (dget match_map k).isSome = true := by
  intro h
  cases h1 : dget match_map pr.1 with
  | none =>
      simp only [applyStep, h1] at h
      exact Or.inl h
  | some m =>
      cases h2 : dget legacy_strings pr.2 with
      | some e =>
          simp only [applyStep, h1, h2] at h
          rcases (dget_dinsert_isSome st.1 pr.1 k _).mp h with hk | h'
          · right; rw [← hk, h1]; rfl
          · exact Or.inl h'
      | none =>
          cases h3 : dget existing_strings pr.1 with
          | some b =>
              simp only [applyStep, h1, h2, h3] at h
              rcases (dget_dinsert_isSome st.1 pr.1 k _).mp h with hk | h'
              · right; rw [← hk, h1]; rfl
              · exact Or.inl h'
          | none =>
              simp only [applyStep, h1, h2, h3] at h
              rcases (dget_dinsert_isSome st.1 pr.1 k _).mp h with hk | h'
              · right; rw [← hk, h1]; rfl
              · exact Or.inl h'

theorem mappingLoop_keys (legacy_strings : List (String × XNode))
    (existing_strings : List (String × String)) (match_map : List (String × Entry))
    (default_bodies : List (String × String)) :
    ∀ (ms : List (String × String)) (st : List (String × String) × PortStats) (k : String),
    (dget (ms.foldl (applyStep legacy_strings existing_strings match_map default_bodies) st).1 k).isSome = true →
    (dget st.1 k).isSome = true ∨ (dget match_map k).isSome = true := by
  intro ms
  induction ms with
  | nil => intro st k h; exact Or.inl h
  | cons pr rest ih =>
      intro st k h
      simp only [List.foldl_cons] at h
      rcases ih _ k h with h' | h'
      · exact applyStep_keys legacy_strings existing_strings match_map default_bodies st pr k h'
      · exact Or.inr h'

theorem secondPass_keys (match_map : List (String × Entry)) :
    ∀ (existing_strings : List (String × String)) (r : List (String × String)) (k : String),
    (dget (secondPass existing_strings match_map r) k).isSome = true →
    (dget r k).isSome = true ∨ (dget match_map k).isSome = true := by
  intro ex
  induction ex with
  | nil => intro r k h; exact Or.inl h
  | cons kv rest ih =>
      intro r k h
      have hstep : secondPass (kv :: rest) match_map r = secondPass rest match_map
          (if pystartswith kv.1 "legacy_" || (dget r kv.1).isSome || (dget match_map kv.1).isNone
           then r else dinsert r kv.1 kv.2) := rfl
      rw [hstep] at h
      by_cases hc : (pystartswith kv.1 "legacy_" || (dget r kv.1).isSome
          || (dget match_map kv.1).isNone) = true
      · rw [if_pos hc] at h; exact ih r k h
      · rw [if_neg hc] at h
        simp only [Bool.or_eq_true, not_or, Bool.not_eq_true] at hc
        rcases ih _ k h with h' | h'
        · rcases (dget_dinsert_isSome r kv.1 k kv.2).mp h' with hk | h''
          · right
            rw [← hk]
            have hnn := hc.2
            cases hmm : dget match_map kv.1 with
            | none => rw [hmm] at hnn; simp at hnn
            | some _ => rfl
          · exact Or.inl h''
        · exact Or.inr h'

/-- Keys already produced before the copy-forward pass are left untouched. -/
theorem secondPass_frame (match_map : List (String × Entry)) :
    ∀ (existing_strings : List (String × String)) (r : List (String × String)) (k : String),
    (dget r k).isSome = true →
    dget (secondPass existing_strings match_map r) k = dget r k := by
  intro ex
  induction ex with
  | nil => intro r k _; rfl
  | cons kv rest ih =>
      intro r k h
      have hstep : secondPass (kv :: rest) match_map r = secondPass rest match_map
          (if pystartswith kv.1 "legacy_" || (dget r kv.1).isSome || (dget match_map kv.1).isNone
           then r else dinsert r kv.1 kv.2) := rfl
      rw [hstep]
      by_cases hc : (pystartswith kv.1 "legacy_" || (dget r kv.1).isSome
          || (dget match_map kv.1).isNone) = true
      · rw [if_pos hc]; exact ih r k h
      · rw [if_neg hc]
        simp only [Bool.or_eq_true, not_or, Bool.not_eq_true] at hc
        have hne : kv.1 ≠ k := by
          intro e
          rw [e] at hc
          exact absurd h (by simp [hc.1.2])
        have hd : dget (dinsert r kv.1 kv.2) k = dget r k := by
          rw [dget_dinsert, if_neg hne]
        rw [ih _ k (by rw [hd]; exact h), hd]

/-- A key absent from the existing translation is left untouched by the
copy-forward pass. -/
theorem secondPass_not_existing (match_map : List (String × Entry)) :
    ∀ (existing_strings : List (String × String)) (r : List (String × String)) (k : String),
    dget existing_strings k = none →
    dget (secondPass existing_strings match_map r) k = dget r k := by
  intro ex
  induction ex with
  | nil => intro r k _; rfl
  | cons kv rest ih =>
      intro r k hex
      have hne : kv.1 ≠ k := by
        intro e
        simp [dget, e] at hex
      have hrest : dget rest k = none := by
        simpa [dget, hne] using hex
      have hstep : secondPass (kv :: rest) match_map r = secondPass rest match_map
          (if pystartswith kv.1 "legacy_" || (dget r kv.1).isSome || (dget match_map kv.1).isNone
           then r else dinsert r kv.1 kv.2) := rfl
      rw [hstep]
      by_cases hc : (pystartswith kv.1 "legacy_" || (dget r kv.1).isSome
          || (dget match_map kv.1).isNone) = true
      · rw [if_pos hc]; exact ih r k hrest
      · rw [if_neg hc]
        rw [ih _ k hrest, dget_dinsert, if_neg hne]

/-- A key with the reserved `legacy_` name is left untouched by the
copy-forward pass. -/
theorem secondPass_legacy_name (match_map : List (String × Entry)) :
    ∀ (existing_strings : List (String × String)) (r : List (String × String)) (k : String),
    pystartswith k "legacy_" = true →
    dget (secondPass existing_strings match_map r) k = dget r k := by
  intro ex
  induction ex with
  | nil => intro r k _; rfl
  | cons kv rest ih =>
      intro r k hk
      have hstep : secondPass (kv :: rest) match_map r = secondPass rest match_map
          (if pystartswith kv.1 "legacy_" || (dget r kv.1).isSome || (dget match_map kv.1).isNone
           then r else dinsert r kv.1 kv.2) := rfl
      rw [hstep]
      by_cases hc : (pystartswith kv.1 "legacy_" || (dget r kv.1).isSome
          || (dget match_map kv.1).isNone) = true
      · rw [if_pos hc]; exact ih r k hk
      · rw [if_neg hc]
        simp only [Bool.or_eq_true, not_or, Bool.not_eq_true] at hc
        have hne : kv.1 ≠ k := by
          intro e
          rw [e, hk] at hc
          exact absurd hc.1.1 (by simp)
        rw [ih _ k hk, dget_dinsert, if_neg hne]

/-- A key that is not a target key is left untouched by the copy-forward
pass. -/
theorem secondPass_no_match (match_map : List (String × Entry)) :
    ∀ (existing_strings : List (String × String)) (r : List (String × String)) (k : String),
    dget match_map k = none →
    dget (secondPass existing_strings match_map r) k = dget r k := by
  intro ex
  induction ex with
  | nil => intro r k _; rfl
  | cons kv rest ih =>
      intro r k hk
      have hstep : secondPass (kv :: rest) match_map r = secondPass rest match_map
          (if pystartswith kv.1 "legacy_" || (dget r kv.1).isSome || (dget match_map kv.1).isNone
           then r else dinsert r kv.1 kv.2) := rfl
      rw [hstep]
      by_cases hc : (pystartswith kv.1 "legacy_" || (dget r kv.1).isSome
          || (dget match_map kv.1).isNone) = true
      · rw [if_pos hc]; exact ih r k hk
      · rw [if_neg hc]
        simp only [Bool.or_eq_true, not_or, Bool.not_eq_true] at hc
        have hne : kv.1 ≠ k := by
          intro e
          rw [e, hk] at hc
          simpa using hc.2
        rw [ih _ k hk, dget_dinsert, if_neg hne]

/-- A key meeting all three copy-forward conditions receives its existing
body. -/
theorem secondPass_copy (match_map : List (String × Entry)) :
    ∀ (existing_strings : List (String × String)) (r : List (String × String))
      (k : String) (b : String),
    dget r k = none →
    dget existing_strings k = some b →
    (dget match_map k).isSome = true →
    pystartswith k "legacy_" = false →
    dget (secondPass existing_strings match_map r) k = some b := by
  intro ex
  induction ex with
  | nil => intro r k b _ hex; simp [dget] at hex
  | cons kv rest ih =>
      intro r k b hr hex hmm hleg
      have hstep : secondPass (kv :: rest) match_map r = secondPass rest match_map
          (if pystartswith kv.1 "legacy_" || (dget r kv.1).isSome || (dget match_map kv.1).isNone
           then r else dinsert r kv.1 kv.2) := rfl
      rw [hstep]
      by_cases he : kv.1 = k
      · have hb : kv.2 = b := by
          simp only [dget, he, if_pos rfl] at hex
          exact Option.some.inj hex
        have hc : (pystartswith kv.1 "legacy_" || (dget r kv.1).isSome
            || (dget match_map kv.1).isNone) = false := by
          rw [he, hleg, hr]
          cases hm : dget match_map k with
          | none => rw [hm] at hmm; simp at hmm
          | some _ => rfl
        rw [if_neg (by rw [hc]; simp)]
        have hins : dget (dinsert r kv.1 kv.2) k = some b := by
          rw [dget_dinsert, if_pos he, hb]
        rw [secondPass_frame match_map rest _ k (by rw [hins]; rfl), hins]
      · have hrest : dget rest k = some b := by
          simpa [dget, he] using hex
        by_cases hc : (pystartswith kv.1 "legacy_" || (dget r kv.1).isSome
            || (dget match_map kv.1).isNone) = true
        · rw [if_pos hc]; exact ih r k b hr hrest hmm hleg
        · rw [if_neg hc]
          exact ih _ k b (by rw [dget_dinsert, if_neg he]; exact hr) hrest hmm hleg

/-- C1: for every mapping pair `(new_key, old_key)` processed by the loop of
`apply_mappings`, exactly one of four outcomes occurs, tried in this order:
(1) `new_key` not a key of the target match map: `new_key` joins
`missing_new`, no output entry, no counter or `missing_old` change;
(2) `old_key` in the legacy table: the legacy element's inner XML is output
and `applied` is incremented; (3) `new_key` in the existing translation:
that body is output, `fallback_existing` is incremented and `old_key` joins
`missing_old`; (4) otherwise the base default body (empty if absent) is
output, `fallback_default` is incremented and `old_key` joins `missing_old`.
The guarding conditions make the four disjuncts mutually exclusive. -/
theorem port_C1 (c : Content) (legacy_strings : List (String × XNode))
    (existing_strings : List (String × String)) (db : List (String × String))
    (r : List (String × String)) (s : PortStats) (nk ok : String) :
    (dget (matchMapOf c) nk = none ∧
      applyStep legacy_strings existing_strings (matchMapOf c) db (r, s) (nk, ok)
        = (r, { s with missing_new := sinsert s.missing_new nk }))
  ∨ ((dget (matchMapOf c) nk).isSome = true ∧ (∃ e, dget legacy_strings ok = some e ∧
      applyStep legacy_strings existing_strings (matchMapOf c) db (r, s) (nk, ok)
        = (dinsert r nk (element_inner_xml e), { s with applied := s.applied + 1 })))
  ∨ ((dget (matchMapOf c) nk).isSome = true ∧ dget legacy_strings ok = none ∧
      (∃ b, dget existing_strings nk = some b ∧
      applyStep legacy_strings existing_strings (matchMapOf c) db (r, s) (nk, ok)
        = (dinsert r nk b,
           { s with fallback_existing := s.fallback_existing + 1,
                    missing_old := sinsert s.missing_old ok })))
  ∨ ((dget (matchMapOf c) nk).isSome = true ∧ dget legacy_strings ok = none ∧
      dget existing_strings nk = none ∧
      applyStep legacy_strings existing_strings (matchMapOf c) db (r, s) (nk, ok)
        = (dinsert r nk ((dget db nk).getD ""),
           { s with fallback_default := s.fallback_default + 1,
                    missing_old := sinsert s.missing_old ok })) := by
  cases h1 : dget (matchMapOf c) nk with
  | none =>
      exact Or.inl ⟨rfl, by simp [applyStep, h1]⟩
  | some m =>
      cases h2 : dget legacy_strings ok with
      | some e =>
          exact Or.inr (Or.inl ⟨rfl, e, rfl, by simp [applyStep, h1, h2]⟩)
      | none =>
          cases h3 : dget existing_strings nk with
          | some b =>
              exact Or.inr (Or.inr (Or.inl ⟨rfl, rfl, b, rfl,
                by simp [applyStep, h1, h2, h3]⟩))
          | none =>
              exact Or.inr (Or.inr (Or.inr ⟨rfl, rfl, rfl,
                by simp [applyStep, h1, h2, h3]⟩))

/-- C3: after `apply_mappings` processes a mapping sequence,
`applied + fallback_existing + fallback_default` equals the number of
mapping pairs whose `new_key` is a key of the target file's match map, and
that number never exceeds the number of pairs processed. -/
theorem port_C3 (c : Content) (legacy_strings : List (String × XNode))
    (existing_strings : List (String × String)) (ms : List (String × String)) :
    ((apply_mappings ms legacy_strings existing_strings (matchMapOf c)
        (parse_string_bodies c)).2.applied
      + (apply_mappings ms legacy_strings existing_strings (matchMapOf c)
          (parse_string_bodies c)).2.fallback_existing
      + (apply_mappings ms legacy_strings existing_strings (matchMapOf c)
          (parse_string_bodies c)).2.fallback_default
      = (ms.filter (fun pr => (dget (matchMapOf c) pr.1).isSome)).length)
    ∧ (ms.filter (fun pr => (dget (matchMapOf c) pr.1).isSome)).length ≤ ms.length := by
  constructor
  · have h := mappingLoop_sum legacy_strings existing_strings (matchMapOf c)
      (parse_string_bodies c) ms ([], initStats)
    simpa [apply_mappings, initStats] using h
  · exact List.length_filter_le _ _

/-- C4: the Rewriter's output differs from the target text only inside the
bodies of entries whose key has a resolution: the destination content equals
the flattening of the per-entry description `rewriteSpec`, whose entries keep
the original opening/closing delimiters, names, gaps and trailing text, and
whose unresolved entries are kept exactly as in the input. -/
theorem port_C4 (c : Content) (replacements : List (String × String)) :
    finalText c replacements = flatten (rewriteSpec c replacements)
    ∧ (rewriteSpec c replacements).segs.map
        (fun ge => (ge.1, ge.2.header, ge.2.name, ge.2.footer))
      = c.segs.map (fun ge => (ge.1, ge.2.header, ge.2.name, ge.2.footer))
    ∧ (rewriteSpec c replacements).tail = c.tail
    ∧ (∀ ge ∈ c.segs, dget replacements ge.2.name = none →
        rewriteEntry replacements ge.2 = ge.2) := by
  refine ⟨finalText_eq_flatten_rewriteSpec c replacements, ?_, rfl, ?_⟩
  · simp only [rewriteSpec, List.map_map]
    have hcomp : ((fun ge : String × Entry => (ge.1, ge.2.header, ge.2.name, ge.2.footer))
        ∘ (fun ge => (ge.1, rewriteEntry replacements ge.2)))
        = fun ge : String × Entry => (ge.1, ge.2.header, ge.2.name, ge.2.footer) := by
      funext ge
      cases h : dget replacements ge.2.name <;> simp [rewriteEntry, h]
    rw [hcomp]
  · intro ge _ h
    simp [rewriteEntry, h]

theorem port_C4_witness :
    rewriteEntry [("z", "Z")] (⟨"<string name=\"k\">", "k", "Hi", "</string>"⟩ : Entry)
      = ⟨"<string name=\"k\">", "k", "Hi", "</string>"⟩ :=
  (port_C4 targetContentCx [("z", "Z")]).2.2.2
    ("<resources>", ⟨"<string name=\"k\">", "k", "Hi", "</string>"⟩)
    (by simp [targetContentCx]) (by decide)

theorem prefix_extend {P xs ys : List Char} (h : P.isPrefixOf xs = true) :
    P.isPrefixOf (xs ++ ys) = true := by
  rw [List.isPrefixOf_iff_prefix] at h ⊢
  exact h.trans (List.prefix_append xs ys)

theorem prefix_drop_eq {P xs : List Char} (h : P.isPrefixOf xs = true) :
    xs = P ++ xs.drop P.length := by
  rw [List.isPrefixOf_iff_prefix] at h
  have ht := List.prefix_iff_eq_take.mp h
  conv_lhs => rw [← List.take_append_drop P.length xs]
  rw [← ht]

theorem not_prefix_extend {P xs ys : List Char} (h : ¬ P.isPrefixOf xs = true)
    (hl : P.length ≤ xs.length) : ¬ P.isPrefixOf (xs ++ ys) = true := by
  intro hp
  apply h
  rw [List.isPrefixOf_iff_prefix] at hp ⊢
  have htake := List.prefix_iff_eq_take.mp hp
  rw [List.take_append_of_le_length hl] at htake
  rw [htake]
  exact List.take_prefix _ _

/-- A pattern whose first character occurs nowhere else in it cannot match
starting strictly inside text that the pattern itself follows. -/
theorem no_overlap_prefix (pat : List Char) (hpat : 0 < pat.length)
    (huniq : ∀ i, (hi : i < pat.length) → 0 < i →
      pat.get ⟨i, hi⟩ ≠ pat.get ⟨0, hpat⟩)
    (s t : List Char) (hs : s ≠ []) (hlen : s.length < pat.length) :
    ¬ pat.isPrefixOf (s ++ pat ++ t) = true := by
  intro hp
  rw [List.isPrefixOf_iff_prefix] at hp
  obtain ⟨u, hu⟩ := hp
  have hslen : 0 < s.length := List.length_pos.mpr hs
  have e1 : (s ++ pat ++ t)[s.length]? = pat[s.length]? := by
    rw [← hu, List.getElem?_append_left hlen]
  have e2 : (s ++ pat ++ t)[s.length]? = pat[0]? := by
    rw [List.append_assoc, List.getElem?_append_right (Nat.le_refl s.length),
      Nat.sub_self, List.getElem?_append_left hpat]
  have e3 : pat[s.length]? = pat[0]? := by rw [← e1, e2]
  rw [List.getElem?_eq_getElem hlen, List.getElem?_eq_getElem hpat] at e3
  have e4 : pat.get ⟨s.length, hlen⟩ = pat.get ⟨0, hpat⟩ := by
    simpa [List.get_eq_getElem] using e3
  exact huniq s.length hlen hslen e4

theorem litOpen_ne_nil : 0 < litOpen.length := by decide

theorem litClose_ne_nil : 0 < litClose.length := by decide

theorem litOpen_uniq : ∀ i, (hi : i < litOpen.length) → 0 < i →
    litOpen.get ⟨i, hi⟩ ≠ litOpen.get ⟨0, litOpen_ne_nil⟩ := by decide

theorem litClose_uniq : ∀ i, (hi : i < litClose.length) → 0 < i →
    litClose.get ⟨i, hi⟩ ≠ litClose.get ⟨0, litClose_ne_nil⟩ := by decide

theorem containsSeq_cons {pat : List Char} {c : Char} {cs : List Char}
    (h : containsSeq pat (c :: cs) = false) :
    pat.isPrefixOf (c :: cs) = false ∧ containsSeq pat cs = false := by
  simpa [containsSeq] using h

/-- No occurrence of the pattern starts inside `s` when `s` is free of the
pattern, even with the pattern itself (and anything else) appended. -/
theorem no_pat_at (pat : List Char) (hpat : 0 < pat.length)
    (huniq : ∀ i, (hi : i < pat.length) → 0 < i →
      pat.get ⟨i, hi⟩ ≠ pat.get ⟨0, hpat⟩)
    (s t : List Char) (hs : s ≠ []) (hcon : containsSeq pat s = false) :
    ¬ pat.isPrefixOf (s ++ pat ++ t) = true := by
  by_cases hlen : s.length < pat.length
  · exact no_overlap_prefix pat hpat huniq s t hs hlen
  · push_neg at hlen
    have hnp : ¬ pat.isPrefixOf s = true := by
      cases s with
      | nil => exact absurd rfl hs
      | cons c cs => simp [(containsSeq_cons hcon).1]
    rw [List.append_assoc]
    exact not_prefix_extend hnp hlen

theorem scanToName_sound : ∀ {cs p r : List Char}, scanToName cs = some (p, r) →
    cs = p ++ r ∧ nameEqLit.isPrefixOf r = true := by
  intro cs
  induction cs with
  | nil => intro p r h; simp [scanToName] at h
  | cons c cs ih =>
      intro p r h
      by_cases h1 : nameEqLit.isPrefixOf (c :: cs) = true
      · simp only [scanToName, if_pos h1, Option.some.injEq, Prod.mk.injEq] at h
        obtain ⟨rfl, rfl⟩ := h
        exact ⟨rfl, h1⟩
      · by_cases h2 : c = '>'
        · simp only [scanToName, if_neg h1, if_pos h2] at h
          exact absurd h (by simp)
        · simp only [scanToName, if_neg h1, if_neg h2] at h
          cases hrec : scanToName cs with
          | none => rw [hrec] at h; simp at h
          | some pr =>
              obtain ⟨p1, r1⟩ := pr
              rw [hrec] at h
              simp only [Option.some.injEq, Prod.mk.injEq] at h
              obtain ⟨rfl, rfl⟩ := h
              obtain ⟨hcs, hpre⟩ := ih hrec
              exact ⟨by rw [hcs]; rfl, hpre⟩

theorem scanToName_stab : ∀ {cs p r : List Char} (ys : List Char),
    scanToName cs = some (p, r) → scanToName (cs ++ ys) = some (p, r ++ ys) := by
  intro cs
  induction cs with
  | nil => intro p r ys h; simp [scanToName] at h
  | cons c cs ih =>
      intro p r ys h
      by_cases h1 : nameEqLit.isPrefixOf (c :: cs) = true
      · simp only [scanToName, if_pos h1, Option.some.injEq, Prod.mk.injEq] at h
        obtain ⟨rfl, rfl⟩ := h
        have h1e : nameEqLit.isPrefixOf ((c :: cs) ++ ys) = true := prefix_extend h1
        simp only [List.cons_append] at h1e ⊢
        simp only [scanToName, if_pos h1e]
      · by_cases h2 : c = '>'
        · simp only [scanToName, if_neg h1, if_pos h2] at h
          exact absurd h (by simp)
        · simp only [scanToName, if_neg h1, if_neg h2] at h
          cases hrec : scanToName cs with
          | none => rw [hrec] at h; simp at h
          | some pr =>
              obtain ⟨p1, r1⟩ := pr
              rw [hrec] at h
              simp only [Option.some.injEq, Prod.mk.injEq] at h
              obtain ⟨rfl, rfl⟩ := h
              have hsound := scanToName_sound hrec
              have hlen6 : nameEqLit.length ≤ cs.length := by
                have hr := (List.isPrefixOf_iff_prefix.mp hsound.2).length_le
                have hc : cs.length = p1.length + r1.length := by
                  rw [hsound.1]; simp
                omega
              have h1e : ¬ nameEqLit.isPrefixOf ((c :: cs) ++ ys) = true := by
                apply not_prefix_extend h1
                simp only [List.length_cons]
                omega
              simp only [List.cons_append] at h1e ⊢
              simp only [scanToName, if_neg h1e, if_neg h2, List.append_eq, ih ys hrec]

theorem takeUntilChar_sound {stop : Char} : ∀ {cs p r : List Char},
    takeUntilChar stop cs = some (p, r) → cs = p ++ r ∧ ∃ r2, r = stop :: r2 := by
  intro cs
  induction cs with
  | nil => intro p r h; simp [takeUntilChar] at h
  | cons c cs ih =>
      intro p r h
      by_cases h1 : c = stop
      · simp only [takeUntilChar, if_pos h1, Option.some.injEq, Prod.mk.injEq] at h
        obtain ⟨rfl, rfl⟩ := h
        exact ⟨rfl, cs, by rw [h1]⟩
      · simp only [takeUntilChar, if_neg h1] at h
        cases hrec : takeUntilChar stop cs with
        | none => rw [hrec] at h; simp at h
        | some pr =>
            obtain ⟨p1, r1⟩ := pr
            rw [hrec] at h
            simp only [Option.some.injEq, Prod.mk.injEq] at h
            obtain ⟨rfl, rfl⟩ := h
            obtain ⟨hcs, r2, hr2⟩ := ih hrec
            exact ⟨by rw [hcs]; rfl, r2, hr2⟩

theorem takeUntilChar_stab {stop : Char} : ∀ {cs p r : List Char} (ys : List Char),
    takeUntilChar stop cs = some (p, r) →
    takeUntilChar stop (cs ++ ys) = some (p, r ++ ys) := by
  intro cs
  induction cs with
  | nil => intro p r ys h; simp [takeUntilChar] at h
  | cons c cs ih =>
      intro p r ys h
      by_cases h1 : c = stop
      · simp only [takeUntilChar, if_pos h1, Option.some.injEq, Prod.mk.injEq] at h
        obtain ⟨rfl, rfl⟩ := h
        simp only [List.cons_append, takeUntilChar, if_pos h1, List.append_eq]
      · simp only [takeUntilChar, if_neg h1] at h
        cases hrec : takeUntilChar stop cs with
        | none => rw [hrec] at h; simp at h
        | some pr =>
            obtain ⟨p1, r1⟩ := pr
            rw [hrec] at h
            simp only [Option.some.injEq, Prod.mk.injEq] at h
            obtain ⟨rfl, rfl⟩ := h
            simp only [List.cons_append, takeUntilChar, if_neg h1, List.append_eq, ih ys hrec]

theorem findClose_sound : ∀ {cs p r : List Char}, findClose cs = some (p, r) →
    cs = p ++ litClose ++ r := by
  intro cs
  induction cs with
  | nil => intro p r h; simp [findClose] at h
  | cons c cs ih =>
      intro p r h
      by_cases h1 : litClose.isPrefixOf (c :: cs) = true
      · simp only [findClose, if_pos h1, Option.some.injEq, Prod.mk.injEq] at h
        obtain ⟨rfl, rfl⟩ := h
        have hd := prefix_drop_eq h1
        calc c :: cs = litClose ++ (c :: cs).drop litClose.length := hd
          _ = [] ++ litClose ++ (c :: cs).drop 9 := by rfl
      · simp only [findClose, if_neg h1] at h
        cases hrec : findClose cs with
        | none => rw [hrec] at h; simp at h
        | some pr =>
            obtain ⟨p1, r1⟩ := pr
            rw [hrec] at h
            simp only [Option.some.injEq, Prod.mk.injEq] at h
            obtain ⟨rfl, rfl⟩ := h
            conv_lhs => rw [ih hrec]
            simp

theorem findClose_exact : ∀ (body t : List Char),
    containsSeq litClose body = false →
    findClose (body ++ litClose ++ t) = some (body, t) := by
  intro body
  induction body with
  | nil =>
      intro t _
      show findClose ('<' :: '/' :: 's' :: 't' :: 'r' :: 'i' :: 'n' :: 'g' :: '>' :: t)
        = some ([], t)
      have hp : litClose.isPrefixOf ('<' :: '/' :: 's' :: 't' :: 'r' :: 'i' :: 'n' :: 'g' :: '>' :: t) = true := by
        rw [List.isPrefixOf_iff_prefix]
        exact ⟨t, rfl⟩
      simp only [findClose, if_pos hp]
      rfl
  | cons c body ih =>
      intro t hcon
      obtain ⟨h1, h2⟩ := containsSeq_cons hcon
      have hnp : ¬ litClose.isPrefixOf ((c :: body) ++ litClose ++ t) = true :=
        no_pat_at litClose litClose_ne_nil litClose_uniq (c :: body) t (by simp) hcon
      have hcond : ¬ litClose.isPrefixOf (c :: (body ++ litClose ++ t)) = true := by
        simpa using hnp
      show findClose (c :: (body ++ litClose ++ t)) = some (c :: body, t)
      simp only [findClose, if_neg hcond]
      rw [ih t h2]

theorem matchOpener_none {cs : List Char} (h : ¬ litOpen.isPrefixOf cs = true) :
    matchOpener cs = none := by
  unfold matchOpener
  rw [if_neg h]

theorem matchOpener_sound : ∀ {cs hd nm rest : List Char},
    matchOpener cs = some (hd, nm, rest) →
    cs = hd ++ rest ∧ litOpen.isPrefixOf hd = true := by
  intro cs hd nm rest hm
  unfold matchOpener at hm
  split at hm
  case isFalse => simp at hm
  case isTrue h1 =>
    split at hm
    case h_2 => simp at hm
    case h_1 c cs1 heq =>
      split at hm
      case isFalse => simp at hm
      case isTrue hws =>
        split at hm
        case h_1 => simp at hm
        case h_2 mid r1 hsn =>
          split at hm
          case h_1 => simp at hm
          case h_2 nm1 r3 htq =>
            split at hm
            case isTrue => simp at hm
            case isFalse hne =>
              split at hm
              case h_1 => simp at hm
              case h_2 post r5 htg =>
                simp only [Option.some.injEq, Prod.mk.injEq] at hm
                obtain ⟨hhd, hnm, hrest⟩ := hm
                obtain ⟨hc1, hpre1⟩ := scanToName_sound hsn
                obtain ⟨hc2, r2, hr2⟩ := takeUntilChar_sound htq
                obtain ⟨hc3, r6, hr6⟩ := takeUntilChar_sound htg
                subst hr2
                subst hr6
                subst hnm
                subst hhd
                simp only [List.drop_succ_cons, List.drop_zero] at hrest hc3
                constructor
                · have e0 : cs = litOpen ++ (c :: cs1) := by
                    have e := prefix_drop_eq h1
                    rw [show litOpen.length = 7 from rfl, heq] at e
                    exact e
                  have e1 : r1 = nameEqLit ++ (nm1 ++ ('"' :: r2)) := by
                    have e := prefix_drop_eq hpre1
                    rw [show nameEqLit.length = 6 from rfl, hc2] at e
                    exact e
                  rw [e0, hc1, e1, hc3, hrest]
                  simp
                · rw [List.isPrefixOf_iff_prefix]
                  exact ⟨mid ++ nameEqLit ++ nm1 ++ ['"'] ++ post ++ ['>'], by simp⟩

/-- A fully self-matching opening tag still matches, consuming exactly
itself, when more text follows it. -/
theorem matchOpener_extend : ∀ {hd nm : List Char} (ys : List Char),
    matchOpener hd = some (hd, nm, []) →
    matchOpener (hd ++ ys) = some (hd, nm, ys) := by
  intro hd nm ys hm
  unfold matchOpener at hm
  split at hm
  case isFalse => simp at hm
  case isTrue h1 =>
    split at hm
    case h_2 => simp at hm
    case h_1 c cs1 heq =>
      split at hm
      case isFalse => simp at hm
      case isTrue hws =>
        split at hm
        case h_1 => simp at hm
        case h_2 mid r1 hsn =>
          split at hm
          case h_1 => simp at hm
          case h_2 nm1 r3 htq =>
            split at hm
            case isTrue => simp at hm
            case isFalse hne =>
              split at hm
              case h_1 => simp at hm
              case h_2 post r5 htg =>
                simp only [Option.some.injEq, Prod.mk.injEq] at hm
                obtain ⟨hhd, hnm, hrest⟩ := hm
                obtain ⟨hc1, hpre1⟩ := scanToName_sound hsn
                obtain ⟨hc2, r2, hr2⟩ := takeUntilChar_sound htq
                obtain ⟨hc3, r6, hr6⟩ := takeUntilChar_sound htg
                subst hr2
                subst hr6
                simp only [List.drop_succ_cons, List.drop_zero] at hrest hc3 htg
                subst hrest
                have h7 : 7 ≤ hd.length := by
                  have hl := (List.isPrefixOf_iff_prefix.mp h1).length_le
                  rw [show litOpen.length = 7 from rfl] at hl
                  exact hl
                have hdrop : (hd ++ ys).drop 7 = c :: (cs1 ++ ys) := by
                  rw [List.drop_append_of_le_length h7, heq]
                  rfl
                have hsn2 : scanToName (c :: (cs1 ++ ys)) = some (mid, r1 ++ ys) := by
                  have hst := scanToName_stab ys hsn
                  simpa using hst
                have h6 : 6 ≤ r1.length := by
                  have hl := (List.isPrefixOf_iff_prefix.mp hpre1).length_le
                  rw [show nameEqLit.length = 6 from rfl] at hl
                  exact hl
                have hdrop6 : (r1 ++ ys).drop 6 = r1.drop 6 ++ ys :=
                  List.drop_append_of_le_length h6
                have htq2 : takeUntilChar '"' (r1.drop 6 ++ ys)
                    = some (nm1, ('"' :: r2) ++ ys) :=
                  takeUntilChar_stab ys htq
                have htg2 : takeUntilChar '>' (r2 ++ ys) = some (post, '>' :: ys) := by
                  have hst := takeUntilChar_stab ys htg
                  simpa using hst
                unfold matchOpener
                rw [if_pos (prefix_extend h1), hdrop]
                simp only []
                rw [if_pos hws, hsn2]
                simp only []
                rw [hdrop6, htq2]
                simp only []
                rw [if_neg hne]
                simp only [List.cons_append, List.drop_succ_cons, List.drop_zero]
                rw [htg2]
                simp only []
                rw [hhd, hnm]
                simp

theorem consGapAll_cons_entry : ∀ (g h nm body : List Char)
    (segs : List (List Char × List Char × List Char × List Char)) (tl : List Char),
    consGapAll g ((([], h, nm, body) :: segs), tl) = (((g, h, nm, body) :: segs), tl) := by
  intro g
  induction g with
  | nil => intro h nm body segs tl; rfl
  | cons cc g ih =>
      intro h nm body segs tl
      show consGap cc (consGapAll g ((([], h, nm, body) :: segs), tl)) = _
      rw [ih]
      rfl

theorem scanAux_no_open : ∀ (tl : List Char) (fuel : Nat), tl.length < fuel →
    containsSeq litOpen tl = false → scanAux fuel tl = ([], tl) := by
  intro tl
  induction tl with
  | nil =>
      intro fuel hf _
      cases fuel with
      | zero => omega
      | succ f => rfl
  | cons cc cs ih =>
      intro fuel hf hcon
      obtain ⟨h1, h2⟩ := containsSeq_cons hcon
      cases fuel with
      | zero => simp at hf
      | succ f =>
          have hmo : matchOpener (cc :: cs) = none := matchOpener_none (by simp [h1])
          show scanAux (f + 1) (cc :: cs) = ([], cc :: cs)
          simp only [scanAux, hmo]
          rw [ih f (by simp only [List.length_cons] at hf; omega) h2]
          rfl

theorem scanAux_skip_gap : ∀ (gap cs2 : List Char) (fuel : Nat),
    containsSeq litOpen gap = false →
    litOpen.isPrefixOf cs2 = true →
    (gap ++ cs2).length < fuel →
    scanAux fuel (gap ++ cs2) = consGapAll gap (scanAux (fuel - gap.length) cs2) := by
  intro gap
  induction gap with
  | nil =>
      intro cs2 fuel _ _ _
      simp [consGapAll]
  | cons cc gap ih =>
      intro cs2 fuel hcon hpre hf
      obtain ⟨h1, h2⟩ := containsSeq_cons hcon
      cases fuel with
      | zero => simp at hf
      | succ f =>
          have hdecomp := prefix_drop_eq hpre
          rw [show litOpen.length = 7 from rfl] at hdecomp
          have hng : ¬ litOpen.isPrefixOf ((cc :: gap) ++ cs2) = true := by
            intro hbad
            apply no_pat_at litOpen litOpen_ne_nil litOpen_uniq (cc :: gap) (cs2.drop 7)
              (by simp) hcon
            rw [hdecomp] at hbad
            simpa [List.append_assoc] using hbad
          have hmo : matchOpener (cc :: (gap ++ cs2)) = none :=
            matchOpener_none (by simpa using hng)
          show scanAux (f + 1) (cc :: (gap ++ cs2))
            = consGapAll (cc :: gap) (scanAux ((f + 1) - (cc :: gap).length) cs2)
          simp only [scanAux, hmo]
          rw [ih cs2 f h2 hpre
            (by simp only [List.length_append, List.length_cons] at hf ⊢; omega)]
          have harith : (f + 1) - (cc :: gap).length = f - gap.length := by
            simp only [List.length_cons]
            omega
          rw [harith]
          rfl

theorem flatten_fold_toList : ∀ (segs : List (String × Entry)) (acc : String),
    (segs.foldl (fun acc ge => acc ++ ge.1 ++ ge.2.header ++ ge.2.body ++ ge.2.footer)
      acc).toList
    = acc.toList ++ segsChars segs := by
  intro segs
  induction segs with
  | nil => intro acc; simp [segsChars]
  | cons ge rest ih =>
      intro acc
      simp only [List.foldl_cons, segsChars]
      rw [ih]
      show (acc ++ ge.1 ++ ge.2.header ++ ge.2.body ++ ge.2.footer).data ++ segsChars rest = _
      simp only [String.data_append]
      simp [String.toList, List.append_assoc]

theorem flatten_toList (c : Content) :
    (flatten c).toList = segsChars c.segs ++ c.tail.toList := by
  unfold flatten
  show ((c.segs.foldl _ "") ++ c.tail).data = _
  rw [String.data_append]
  have h := flatten_fold_toList c.segs ""
  show (c.segs.foldl _ "").toList ++ c.tail.toList = _
  rw [h]
  simp [String.toList]

theorem scanAux_exact : ∀ (segs : List (String × Entry)) (tl : String) (fuel : Nat),
    (∀ ge ∈ segs, containsSeq litOpen ge.1.toList = false ∧ EntryScanWF ge.2) →
    containsSeq litOpen tl.toList = false →
    (segsChars segs ++ tl.toList).length < fuel →
    scanAux fuel (segsChars segs ++ tl.toList)
      = (segs.map (fun ge =>
          (ge.1.toList, ge.2.header.toList, ge.2.name.toList, ge.2.body.toList)),
         tl.toList) := by
  intro segs
  induction segs with
  | nil =>
      intro tl fuel _ htl hf
      simp only [segsChars, List.nil_append, List.map_nil]
      exact scanAux_no_open tl.toList fuel (by simpa [segsChars] using hf) htl
  | cons ge rest ih =>
      intro tl fuel hwf htl hf
      have hge := hwf ge (List.mem_cons_self _ _)
      have hgap := hge.1
      have hhdr := hge.2.1
      have hfoot := hge.2.2.1
      have hbody := hge.2.2.2
      have hlc : ("</string>" : String).toList = litClose := rfl
      have hchars : segsChars (ge :: rest) ++ tl.toList
          = ge.1.toList ++ (ge.2.header.toList ++ (ge.2.body.toList
              ++ (litClose ++ (segsChars rest ++ tl.toList)))) := by
        show (ge.1.toList ++ ge.2.header.toList ++ ge.2.body.toList ++ ge.2.footer.toList
          ++ segsChars rest) ++ tl.toList = _
        rw [hfoot, hlc]
        simp [List.append_assoc]
      have hopre : litOpen.isPrefixOf (ge.2.header.toList ++ (ge.2.body.toList
          ++ (litClose ++ (segsChars rest ++ tl.toList)))) = true :=
        prefix_extend (matchOpener_sound hhdr).2
      rw [hchars, scanAux_skip_gap ge.1.toList _ fuel hgap hopre (by rw [← hchars]; exact hf)]
      have hmo := matchOpener_extend
        (ge.2.body.toList ++ (litClose ++ (segsChars rest ++ tl.toList))) hhdr
      have hfc : findClose (ge.2.body.toList ++ (litClose ++ (segsChars rest ++ tl.toList)))
          = some (ge.2.body.toList, segsChars rest ++ tl.toList) := by
        have h := findClose_exact ge.2.body.toList (segsChars rest ++ tl.toList) hbody
        simpa [List.append_assoc] using h
      have hlen : (ge.2.header.toList ++ (ge.2.body.toList
          ++ (litClose ++ (segsChars rest ++ tl.toList)))).length
          < fuel - ge.1.toList.length := by
        rw [hchars] at hf
        simp only [List.length_append] at hf ⊢
        omega
      cases hfg : fuel - ge.1.toList.length with
      | zero =>
          rw [hfg] at hlen
          exact absurd hlen (Nat.not_lt_zero _)
      | succ f2 =>
          rw [hfg] at hlen
          have hrest : scanAux f2 (segsChars rest ++ tl.toList)
              = (rest.map (fun ge =>
                  (ge.1.toList, ge.2.header.toList, ge.2.name.toList, ge.2.body.toList)),
                 tl.toList) := by
            apply ih tl f2 (fun ge2 hge2 => hwf ge2 (List.mem_cons_of_mem _ hge2)) htl
            have h9 : litClose.length = 9 := rfl
            simp only [List.length_append, h9] at hlen ⊢
            omega
          simp only [scanAux, hmo, hfc, hrest]
          rw [consGapAll_cons_entry]
          simp

theorem string_mk_toList (s : String) : String.mk s.toList = s := rfl

theorem scanContent_flatten (c : Content) (hwf : ContentScanWF c) :
    scanContent (flatten c) = c := by
  have hchars := flatten_toList c
  unfold scanContent
  rw [hchars, scanAux_exact c.segs c.tail _ hwf.1 hwf.2 (Nat.lt_succ_self _)]
  simp only []
  have hmap : ∀ (segs : List (String × Entry)), (∀ ge ∈ segs, ge.2.footer = "</string>") →
      ((segs.map (fun ge =>
          (ge.1.toList, ge.2.header.toList, ge.2.name.toList, ge.2.body.toList))).map
        (fun g => (String.mk g.1,
          (⟨String.mk g.2.1, String.mk g.2.2.1, String.mk g.2.2.2, "</string>"⟩ : Entry))))
      = segs := by
    intro segs h
    induction segs with
    | nil => rfl
    | cons ge rest ihm =>
        simp only [List.map_cons]
        rw [ihm (fun ge2 hge2 => h ge2 (List.mem_cons_of_mem _ hge2))]
        have hfoot := h ge (List.mem_cons_self _ _)
        have hentry : (⟨String.mk ge.2.header.toList, String.mk ge.2.name.toList,
            String.mk ge.2.body.toList, "</string>"⟩ : Entry) = ge.2 := by
          rw [← hfoot]
          rfl
        rw [string_mk_toList, hentry]
  rw [hmap c.segs (fun ge hge => ((hwf.1 ge hge).2).2.1)]
  rw [string_mk_toList]

theorem dget_mem {β : Type} : ∀ {d : List (String × β)} {k : String} {v : β},
    dget d k = some v → ∃ kv ∈ d, kv.2 = v := by
  intro d
  induction d with
  | nil => intro k v h; simp [dget] at h
  | cons kv rest ih =>
      intro k v h
      by_cases h1 : kv.1 = k
      · simp only [dget, if_pos h1, Option.some.injEq] at h
        exact ⟨kv, List.mem_cons_self _ _, h⟩
      · simp only [dget, if_neg h1] at h
        obtain ⟨kv2, hm, hv⟩ := ih h
        exact ⟨kv2, List.mem_cons_of_mem _ hm, hv⟩

/-- The substituted decomposition is still scan-stable when the target was
and every resolved body is free of the closing delimiter. -/
theorem rewriteSpec_WF (c : Content) (replacements : List (String × String))
    (hc : ContentScanWF c)
    (hb : ∀ kv ∈ replacements, containsSeq litClose kv.2.toList = false) :
    ContentScanWF (rewriteSpec c replacements) := by
  constructor
  · intro ge hge
    simp only [rewriteSpec, List.mem_map] at hge
    obtain ⟨ge0, hge0, rfl⟩ := hge
    have h0 := hc.1 ge0 hge0
    refine ⟨h0.1, ?_, ?_, ?_⟩
    · cases hr : dget replacements ge0.2.name with
      | none => simpa [rewriteEntry, hr] using h0.2.1
      | some b => simpa [rewriteEntry, hr] using h0.2.1
    · cases hr : dget replacements ge0.2.name with
      | none => simpa [rewriteEntry, hr] using h0.2.2.1
      | some b => simpa [rewriteEntry, hr] using h0.2.2.1
    · cases hr : dget replacements ge0.2.name with
      | none => simpa [rewriteEntry, hr] using h0.2.2.2
      | some b =>
          obtain ⟨kv, hkv, hv⟩ := dget_mem hr
          have := hb kv hkv
          rw [hv] at this
          simpa [rewriteEntry, hr] using this
  · exact hc.2

/-- C5 (amended): for a target text whose finditer decomposition is
scan-stable (`ContentScanWF`) and a resolution mapping none of whose bodies
contains the closing delimiter `</string>`, the keys `STRING_RE` finds in
the destination file after the rewrite equal, in order and in number, the
keys of the original target text.  Without the body proviso the output can
gain entries (`port_C5_counterexample`): a resolved body can smuggle a
complete `<string>` entry into the output, because `element_inner_xml`
emits element text verbatim without re-escaping. -/
theorem port_C5 (c : Content) (replacements : List (String × String))
    (hc : ContentScanWF c)
    (hb : ∀ kv ∈ replacements, containsSeq litClose kv.2.toList = false) :
    entryNames (scanContent (finalText c replacements)) = entryNames c
    ∧ (scanContent (finalText c replacements)).segs.length = c.segs.length := by
  have hscan : scanContent (finalText c replacements) = rewriteSpec c replacements := by
    rw [finalText_eq_flatten_rewriteSpec]
    exact scanContent_flatten _ (rewriteSpec_WF c replacements hc hb)
  rw [hscan]
  constructor
  · simp only [entryNames, rewriteSpec, List.map_map]
    have hcomp : ((fun ge : String × Entry => ge.2.name)
        ∘ (fun ge : String × Entry => (ge.1, rewriteEntry replacements ge.2)))
        = fun ge : String × Entry => ge.2.name := by
      funext ge
      simp [rewriteEntry_name]
    rw [hcomp]
  · simp [rewriteSpec]

theorem port_C5_witness :
    entryNames (scanContent (finalText targetContentCx [("k", "Hello")]))
      = entryNames targetContentCx
    ∧ (scanContent (finalText targetContentCx [("k", "Hello")])).segs.length
      = targetContentCx.segs.length :=
  port_C5 targetContentCx [("k", "Hello")] (by decide) (by decide)

/-- C5 counterexample: with the legacy entry of `legacyRawAdv`, the
Resolution Engine resolves the recognized target key `k` to the body
`X</string><string name="evil">Y`; re-running `STRING_RE` on the text the
Rewriter then writes finds the keys `[k, evil]`, not the original `[k]` —
an entry has been added, refuting the claim as stated. -/
theorem port_C5_counterexample :
    dget replAdv "k" = some "X</string><string name=\"evil\">Y"
    ∧ (dget (matchMapOf targetContentCx) "k").isSome = true
    ∧ entryNames targetContentCx = ["k"]
    ∧ entryNames (scanContent (finalText targetContentCx replAdv)) = ["k", "evil"]
    ∧ ¬(["k", "evil"] = (["k"] : List String)) :=
  ⟨by decide, by decide, by decide, by decide, by decide⟩

/-- C10: with an empty resolved mapping the Rewriter performs no write at
all, so the destination file keeps exactly the content it already had. -/
theorem port_C10 (c : Content) (dest : String) :
    rewrite_strings c [] = none ∧ applyWrite dest (rewrite_strings c []) = dest :=
  ⟨rfl, rfl⟩

/-- The data-row loop of `load_mapping` appends exactly the non-blank rows,
in order. -/
theorem loadLoop_eq (f : List String → String × String) :
    ∀ (l : List (List String)) (acc : List (String × String)),
    l.foldl (fun acc row => if row.isEmpty then acc else acc ++ [f row]) acc
      = acc ++ (l.filter (fun r => !r.isEmpty)).map f := by
  intro l
  induction l with
  | nil => intro acc; simp
  | cons row rest ih =>
      intro acc
      simp only [List.foldl_cons, List.filter_cons]
      by_cases h : row.isEmpty = true
      · rw [if_pos h, ih, h]
        simp
      · rw [if_neg h, ih]
        have hb : (!row.isEmpty) = true := by
          revert h
          cases row.isEmpty <;> simp
        rw [hb]
        simp

/-- C8: the Mapping Loader fails, with an error listing the header it found,
exactly when the first row is not `new_key, old_key`; on a matching header it
returns the data rows as `(new_key, old_key)` pairs in file order, blank
rows skipped, duplicates preserved. -/
theorem port_C8 (rows : List (List String)) :
    (rows.head? = some ["new_key", "old_key"] →
      load_mapping rows = .ok ((rows.tail.filter (fun r => !r.isEmpty)).map
        (fun r => (r.getD 0 "", r.getD 1 ""))))
    ∧ (rows.head? ≠ some ["new_key", "old_key"] →
      load_mapping rows
        = .error ("Unexpected mapping headers: " ++ renderFieldnames rows.head?)) := by
  constructor
  · intro h
    unfold load_mapping
    rw [h, if_pos rfl]
    rw [loadLoop_eq]
    rfl
  · intro h
    unfold load_mapping
    rw [if_neg h]

theorem port_C8_witness :
    load_mapping [["new_key", "old_key"], ["a", "b"], ["a", "b"]]
      = .ok [("a", "b"), ("a", "b")]
    ∧ load_mapping [["x", "y"]]
      = .error "Unexpected mapping headers: [x, y]" := by
  constructor
  · have h := (port_C8 [["new_key", "old_key"], ["a", "b"], ["a", "b"]]).1 rfl
    rw [h]
    rfl
  · have h := (port_C8 [["x", "y"]]).2 (by decide)
    rw [h]
    rfl

/-- C7: after the mapping pass, the copy-forward pass gives a key its
existing (pre-port) body exactly when the key (a) was not produced by the
mapping pass, (b) is a key of the target match map, and (c) does not start
with `legacy_`; a key failing any of the three conditions, or absent from
the existing translation, keeps whatever the mapping pass gave it. -/
theorem port_C7 (c : Content) (legacy_strings : List (String × XNode))
    (existing_strings : List (String × String)) (ms : List (String × String))
    (k : String) :
    (∀ b, dget existing_strings k = some b →
      dget (ms.foldl (applyStep legacy_strings existing_strings (matchMapOf c)
          (parse_string_bodies c)) ([], initStats)).1 k = none →
      (dget (matchMapOf c) k).isSome = true →
      pystartswith k "legacy_" = false →
      dget (apply_mappings ms legacy_strings existing_strings (matchMapOf c)
          (parse_string_bodies c)).1 k = some b)
    ∧ ((dget (ms.foldl (applyStep legacy_strings existing_strings (matchMapOf c)
          (parse_string_bodies c)) ([], initStats)).1 k).isSome = true →
      dget (apply_mappings ms legacy_strings existing_strings (matchMapOf c)
          (parse_string_bodies c)).1 k
        = dget (ms.foldl (applyStep legacy_strings existing_strings (matchMapOf c)
            (parse_string_bodies c)) ([], initStats)).1 k)
    ∧ (dget existing_strings k = none →
      dget (apply_mappings ms legacy_strings existing_strings (matchMapOf c)
          (parse_string_bodies c)).1 k
        = dget (ms.foldl (applyStep legacy_strings existing_strings (matchMapOf c)
            (parse_string_bodies c)) ([], initStats)).1 k)
    ∧ (dget (matchMapOf c) k = none →
      dget (apply_mappings ms legacy_strings existing_strings (matchMapOf c)
          (parse_string_bodies c)).1 k
        = dget (ms.foldl (applyStep legacy_strings existing_strings (matchMapOf c)
            (parse_string_bodies c)) ([], initStats)).1 k)
    ∧ (pystartswith k "legacy_" = true →
      dget (apply_mappings ms legacy_strings existing_strings (matchMapOf c)
          (parse_string_bodies c)).1 k
        = dget (ms.foldl (applyStep legacy_strings existing_strings (matchMapOf c)
            (parse_string_bodies c)) ([], initStats)).1 k) := by
  refine ⟨?_, ?_, ?_, ?_, ?_⟩
  · intro b hex hr hmm hleg
    exact secondPass_copy (matchMapOf c) existing_strings _ k b hr hex hmm hleg
  · intro h
    exact secondPass_frame (matchMapOf c) existing_strings _ k h
  · intro h
    exact secondPass_not_existing (matchMapOf c) existing_strings _ k h
  · intro h
    exact secondPass_no_match (matchMapOf c) existing_strings _ k h
  · intro h
    exact secondPass_legacy_name (matchMapOf c) existing_strings _ k h

theorem port_C7_witness :
    dget (apply_mappings [] [] [("extra", "X")]
      (matchMapOf ⟨[("", ⟨"<string name=\"extra\">", "extra", "E", "</string>"⟩)], ""⟩)
      (parse_string_bodies
        ⟨[("", ⟨"<string name=\"extra\">", "extra", "E", "</string>"⟩)], ""⟩)).1 "extra"
    = some "X" :=
  (port_C7 ⟨[("", ⟨"<string name=\"extra\">", "extra", "E", "</string>"⟩)], ""⟩
    [] [("extra", "X")] [] "extra").1 "X" rfl rfl (by decide) (by decide)

/-- C6 (amended): re-running `STRING_RE` on the text the Rewriter actually
wrote and extracting bodies returns, for every key the Resolution Engine
resolved, exactly the resolved body — provided the target decomposition is
scan-stable (`ContentScanWF`) and no resolved body contains the closing
delimiter `</string>`.  Without that proviso the re-extracted body can
differ from the resolved one (`port_C6_counterexample`): a resolved body
containing `</string>` is cut short at its first closing delimiter. -/
theorem port_C6 (c : Content) (legacy_strings : List (String × XNode))
    (existing_strings : List (String × String)) (ms : List (String × String))
    (k b : String)
    (hc : ContentScanWF c)
    (hb : ∀ kv ∈ (apply_mappings ms legacy_strings existing_strings (matchMapOf c)
        (parse_string_bodies c)).1, containsSeq litClose kv.2.toList = false) :
    dget (apply_mappings ms legacy_strings existing_strings (matchMapOf c)
        (parse_string_bodies c)).1 k = some b →
    dget (parse_string_bodies (scanContent (finalText c
        (apply_mappings ms legacy_strings existing_strings (matchMapOf c)
          (parse_string_bodies c)).1))) k = some b := by
  intro h
  set repl := (apply_mappings ms legacy_strings existing_strings (matchMapOf c)
    (parse_string_bodies c)).1 with hrepl
  have hscan : scanContent (finalText c repl) = rewriteSpec c repl := by
    rw [finalText_eq_flatten_rewriteSpec]
    exact scanContent_flatten _ (rewriteSpec_WF c repl hc hb)
  rw [hscan]
  have hsome : (dget repl k).isSome = true := by rw [h]; rfl
  have hmm : (dget (matchMapOf c) k).isSome = true := by
    have h2 := secondPass_keys (matchMapOf c) existing_strings
      (ms.foldl (applyStep legacy_strings existing_strings (matchMapOf c)
        (parse_string_bodies c)) ([], initStats)).1 k hsome
    rcases h2 with h2 | h2
    · rcases mappingLoop_keys legacy_strings existing_strings (matchMapOf c)
        (parse_string_bodies c) ms ([], initStats) k h2 with h3 | h3
      · simp [dget] at h3
      · exact h3
    · exact h2
  have hex : ∃ ge ∈ c.segs, ge.2.name = k := by
    have h4 := (dget_foldl_dinsert_isSome (fun ge : String × Entry => ge.2.name)
      (fun ge : String × Entry => ge.2) c.segs [] k).mp hmm
    rcases h4 with h4 | h4
    · simp [dget] at h4
    · exact h4
  show dget ((rewriteSpec c repl).segs.foldl
    (fun d ge => dinsert d ge.2.name ge.2.body) []) k = some b
  apply dget_foldl_dinsert_eq (fun ge : String × Entry => ge.2.name)
    (fun ge : String × Entry => ge.2.body)
  · intro x hx hname
    rcases List.mem_map.mp hx with ⟨ge, hge, hxeq⟩
    rw [← hxeq] at hname ⊢
    simp only [rewriteEntry_name] at hname
    show (rewriteEntry repl ge.2).body = b
    rw [rewriteEntry, hname, h]
  · left
    rcases hex with ⟨ge, hge, hname⟩
    refine ⟨(ge.1, rewriteEntry repl ge.2), List.mem_map_of_mem _ hge, ?_⟩
    rw [rewriteEntry_name]
    exact hname

theorem port_C6_witness :
    dget (parse_string_bodies (scanContent (finalText targetContentCx
      (apply_mappings [("k", "a")] legacyTableCx [] (matchMapOf targetContentCx)
        (parse_string_bodies targetContentCx)).1))) "k" = some "A & B" :=
  port_C6 targetContentCx legacyTableCx [] [("k", "a")] "k" "A & B"
    (by decide) (by decide) (by decide)

/-- C6 counterexample: with the legacy entry of `legacyRawAdv`, the engine
resolves key `k` to the body `X</string><string name="evil">Y`, but
re-extracting from the text the Rewriter writes returns `X` for `k` — the
round trip fails when a resolved body contains the closing delimiter. -/
theorem port_C6_counterexample :
    dget replAdv "k" = some "X</string><string name=\"evil\">Y"
    ∧ dget (parse_string_bodies (scanContent (finalText targetContentCx replAdv))) "k"
      = some "X"
    ∧ ¬(("X" : String) = "X</string><string name=\"evil\">Y") :=
  ⟨by decide, by decide, by decide⟩

/-- C2 (amended): for every mapping pair whose `new_key` is a recognized
target key and whose `old_key` has a legacy element, the body recorded for
`new_key` is `element_inner_xml` of that legacy element — the element's text
appended verbatim followed by each child re-serialized by the XML library
with xmlns declarations stripped — never a body from the existing
translation or the base defaults.  (This re-serialized content can differ
character-wise from the raw inner text between the entry's delimiters in
the legacy file; see the counterexample.) -/
theorem port_C2_amended (c : Content) (legacy_strings : List (String × XNode))
    (existing_strings : List (String × String)) (db : List (String × String))
    (r : List (String × String)) (s : PortStats) (nk ok : String)
    (m : Entry) (e : XNode) :
    dget (matchMapOf c) nk = some m →
    dget legacy_strings ok = some e →
    dget (applyStep legacy_strings existing_strings (matchMapOf c) db (r, s) (nk, ok)).1 nk
      = some (element_inner_xml e) := by
  intro h1 h2
  simp [applyStep, h1, h2, dget_dinsert]

theorem port_C2_amended_witness :
    dget (applyStep legacyTableCx [] (matchMapOf targetContentCx)
      (parse_string_bodies targetContentCx) ([], initStats) ("k", "a")).1 "k"
    = some (element_inner_xml (XNode.mk "string" [("name", "a")] "A & B" [] "")) :=
  port_C2_amended targetContentCx legacyTableCx [] (parse_string_bodies targetContentCx)
    [] initStats "k" "a" ⟨"<string name=\"k\">", "k", "Hi", "</string>"⟩
    (XNode.mk "string" [("name", "a")] "A & B" [] "") (by decide) rfl

/-- C2 counterexample: a concrete legacy file whose entry `a` has raw inner
text `A &amp; B`; the pair `("k", "a")` has a recognized `new_key` and a
legacy entry for `old_key`, yet the ported body is `A & B` — the library's
re-serialization of the parsed element, with the entity resolved and the
text appended unescaped — and not the legacy entry's exact inner text
`A &amp; B`, character for character, as the claim states. -/
theorem port_C2_counterexample :
    flatten legacyContentCx = legacyRawCx
    ∧ dget (parse_string_bodies legacyContentCx) "a" = some "A &amp; B"
    ∧ (dget (matchMapOf targetContentCx) "k").isSome = true
    ∧ ((parseDoc legacyRawCx).bind legacyStringsOf).isSome = true
    ∧ dget (apply_mappings [("k", "a")] legacyTableCx []
        (matchMapOf targetContentCx) (parse_string_bodies targetContentCx)).1 "k"
      = some "A & B"
    ∧ "A & B" ≠ "A &amp; B" :=
  ⟨by decide, by decide, by decide, by decide, by decide, by decide⟩

/-- C9: when the archive destination for the requested language already
exists, the run exits with code 1, prints a diagnostic on stderr, and the
filesystem — in particular the language folder and the existing archive —
is exactly what it was before the run: nothing is moved, created or
overwritten. -/
theorem port_C9 (lang : String) (fs : FS) :
    fs.legacyDir.isSome = true →
    (pymain lang fs).exitCode = 1 ∧ (pymain lang fs).state = fs
      ∧ (pymain lang fs).errs ≠ [] := by
  intro h
  cases hb : fs.base with
  | none => refine ⟨?_, ?_, ?_⟩ <;> simp [pymain, hb]
  | some base =>
      cases hl : fs.langDir with
      | none => refine ⟨?_, ?_, ?_⟩ <;> simp [pymain, hb, hl]
      | some lf =>
          cases hleg : fs.legacyDir with
          | none => rw [hleg] at h; simp at h
          | some x => refine ⟨?_, ?_, ?_⟩ <;> simp [pymain, hb, hl, hleg]

theorem port_C9_witness :
    (pymain "pt-rBR" ⟨none, none, some none, none⟩).exitCode = 1
    ∧ (pymain "pt-rBR" ⟨none, none, some none, none⟩).state
        = (⟨none, none, some none, none⟩ : FS)
    ∧ (pymain "pt-rBR" ⟨none, none, some none, none⟩).errs ≠ [] :=
  port_C9 "pt-rBR" ⟨none, none, some none, none⟩ rfl
